import Mathlib

/-
  Verification of the kanban board core of src/app.py against its
  natural-language specification.

  The embedding below translates the data model (Task, ColumnModel, Board),
  the pydantic validation (Board.check_references, Task.parse_due), the
  mutation operations (add_task, edit_task, delete_task, add_column,
  rename_column, delete_column, the edit-modal move block), the
  label/hidden-id encoding (encode_item, decode_item_id), the filter
  predicate (pass_filter), the drag-and-drop payload construction, the
  reorder reconciliation loop, and JSON export/import.

  Python dicts are modelled as association lists in insertion order
  (Python dicts preserve insertion order and have unique keys).
  Python strings are Lean Strings; Python string comparison is by
  code points, modelled with an explicit code-point lexicographic order.
  The uuid-based fresh-id generator is modelled by passing the generated
  id explicitly, with freshness as a hypothesis.
-/

set_option maxHeartbeats 1000000

namespace Kanban

/-- Priority literal of the source: Literal["Low", "Med", "High"]. -/
inductive Priority where
  | low
  | med
  | high
deriving DecidableEq, Repr

/-- Rendering of a Priority, as it appears in labels and in JSON. -/
def priorityText : Priority → String
  | .low => "Low"
  | .med => "Med"
  | .high => "High"

/-- Calendar date as stored in the source's `due` field (a Python `datetime.date`). -/
structure IsoDate where
  y : Nat
  m : Nat
  d : Nat
deriving DecidableEq, Repr

/-- Leap-year rule used by Python's `datetime.date`. -/
def isLeap (y : Nat) : Bool := y % 4 == 0 && (y % 100 != 0 || y % 400 == 0)

/-- Number of days of a month, as validated by `datetime.date`. -/
def daysInMonth (y m : Nat) : Nat :=
  if m = 2 then (if isLeap y then 29 else 28)
  else if m = 4 ∨ m = 6 ∨ m = 9 ∨ m = 11 then 30
  else 31

/-- Range validity of a date, as guaranteed by Python `datetime.date` values. -/
def IsoDate.wf (dt : IsoDate) : Prop :=
  1 ≤ dt.y ∧ dt.y ≤ 9999 ∧ 1 ≤ dt.m ∧ dt.m ≤ 12 ∧ 1 ≤ dt.d ∧ dt.d ≤ daysInMonth dt.y dt.m

instance (dt : IsoDate) : Decidable dt.wf := by
  unfold IsoDate.wf; exact inferInstance

/-- Decimal digit character for a digit value 0..9 (code point 48 + value). -/
def digitChar (k : Nat) : Char := Char.ofNat (48 + k % 10)

/-- Value of a decimal digit character, none for a non-digit. -/
def digitVal (c : Char) : Option Nat :=
  if 48 ≤ c.toNat ∧ c.toNat ≤ 57 then some (c.toNat - 48) else none

/-- Python `date.isoformat()`: the YYYY-MM-DD rendering of a date. -/
def toIso (dt : IsoDate) : String :=
  ⟨[digitChar (dt.y / 1000 % 10), digitChar (dt.y / 100 % 10),
    digitChar (dt.y / 10 % 10), digitChar (dt.y % 10), '-',
    digitChar (dt.m / 10 % 10), digitChar (dt.m % 10), '-',
    digitChar (dt.d / 10 % 10), digitChar (dt.d % 10)]⟩

/-- Python `date.fromisoformat` on the canonical YYYY-MM-DD format: parse and
validate the calendar ranges; none models the raised ValueError. -/
def fromIso (s : String) : Option IsoDate :=
  match s.data with
  | [a, b, c, d, h1, e, f, h2, g, i] =>
    if h1 = '-' ∧ h2 = '-' then
      match digitVal a, digitVal b, digitVal c, digitVal d,
            digitVal e, digitVal f, digitVal g, digitVal i with
      | some va, some vb, some vc, some vd, some ve, some vf, some vg, some vi =>
        let yy := ((va * 10 + vb) * 10 + vc) * 10 + vd
        let mm := ve * 10 + vf
        let dd := vg * 10 + vi
        if 1 ≤ yy ∧ 1 ≤ mm ∧ mm ≤ 12 ∧ 1 ≤ dd ∧ dd ≤ daysInMonth yy mm then
          some ⟨yy, mm, dd⟩
        else none
      | _, _, _, _, _, _, _, _ => none
    else none
  | _ => none

/-- Task model of the source (pydantic BaseModel `Task`). -/
structure Task where
  title : String
  desc : String := ""
  priority : Priority := .med
  due : Option IsoDate := none
  tags : List String := []
  done : Bool := false
deriving DecidableEq, Repr

/-- Column model of the source (pydantic BaseModel `ColumnModel`). -/
structure Column where
  id : String
  name : String
  task_ids : List String := []
deriving DecidableEq, Repr

/-- Board model of the source; `tasks` is a Python dict in insertion order. -/
structure Board where
  columns : List Column
  tasks : List (String × Task)
deriving DecidableEq, Repr

/-- Keys of an association list, in order (Python `dict.keys()`). -/
def keysOf {α : Type} (l : List (String × α)) : List String := l.map Prod.fst

/-- Python `d.get(k)` / `d[k]` on a dict modelled as an association list. -/
def lookupKey {α : Type} : List (String × α) → String → Option α
  | [], _ => none
  | p :: rest, k => if p.1 = k then some p.2 else lookupKey rest k

/-- Python `d[k] = v`: update in place if the key exists, else append. -/
def setKey {α : Type} : List (String × α) → String → α → List (String × α)
  | [], k, v => [(k, v)]
  | p :: rest, k, v => if p.1 = k then (k, v) :: rest else p :: setKey rest k v

/-- Python `d.pop(k, None)`: drop the entry with the given key, if present. -/
def eraseKey {α : Type} : List (String × α) → String → List (String × α)
  | [], _ => []
  | p :: rest, k => if p.1 = k then rest else p :: eraseKey rest k

/-- Concatenation of the task_ids of a list of columns, in column order. -/
def joinTids (cols : List Column) : List String := (cols.map Column.task_ids).flatten

/-- All task ids assigned to some column of the board, in order. -/
def allAssigned (b : Board) : List String := joinTids b.columns

/-- Code-point lexicographic comparison of char lists (Python string `<=`). -/
def strLeData : List Char → List Char → Bool
  | [], _ => true
  | x :: xs, ys =>
    match ys with
    | [] => false
    | y :: yt =>
      if x.toNat < y.toNat then true
      else if x.toNat = y.toNat then strLeData xs yt
      else false

/-- Code-point lexicographic comparison of strings (Python string `<=`). -/
def strLe (a b : String) : Bool := strLeData a.data b.data

/-- Insertion into a string list sorted ascending by `strLe`. -/
def insertStr (x : String) : List String → List String
  | [] => [x]
  | y :: ys => if strLe x y then x :: y :: ys else y :: insertStr x ys

/-- Python `sorted` on a list of strings: ascending code-point order. -/
def sortStrings : List String → List String
  | [] => []
  | x :: xs => insertStr x (sortStrings xs)

/-- Validation errors raised by `Board.check_references`. -/
inductive BoardError where
  | duplicateColumnId (cid : String)
  | danglingTask (tid : String) (colName : String)
deriving DecidableEq, Repr

/-- Column scan of `Board.check_references`: duplicate column ids and
dangling task references, first offender wins, scanning columns in order
with the set of already-seen ids. -/
def checkColumns (taskKeys : List String) : List String → List Column → Option BoardError
  | _, [] => none
  | seen, c :: rest =>
    if c.id ∈ seen then some (.duplicateColumnId c.id)
    else
      match c.task_ids.find? (fun tid => !(taskKeys.contains tid)) with
      | some tid => some (.danglingTask tid c.name)
      | none => checkColumns taskKeys (c.id :: seen) rest

/-- Task keys referenced by no column, in dict order (the set
`self.tasks.keys() - assigned` of the source, before sorting). -/
def orphansOf (b : Board) : List String :=
  (keysOf b.tasks).filter (fun k => !((allAssigned b).contains k))

/-- Orphan repair of `Board.check_references`: append the orphans, sorted
ascending, to the first column's task_ids; no-op without columns or orphans. -/
def repairOrphans (b : Board) : Board :=
  match b.columns with
  | [] => b
  | c0 :: rest =>
    if orphansOf b = [] then b
    else ⟨{ c0 with task_ids := c0.task_ids ++ sortStrings (orphansOf b) } :: rest, b.tasks⟩

/-- Board construction from raw data: the model validator
`Board.check_references` either raises (error) or returns the repaired board. -/
def validate (b : Board) : Except BoardError Board :=
  match checkColumns (keysOf b.tasks) [] b.columns with
  | some e => .error e
  | none => .ok (repairOrphans b)

/-- Append `new` to the `task_ids` of the first column with the given id
(a `for`/`break` search in the source); unchanged when no column matches. -/
def extendFirst : List Column → String → List String → List Column
  | [], _, _ => []
  | c :: rest, cid, new =>
    if c.id = cid then { c with task_ids := c.task_ids ++ new } :: rest
    else c :: extendFirst rest cid new

/-- Whether some column of the list carries the given id. -/
def containsId (cols : List Column) (cid : String) : Bool := cols.any (fun c => c.id == cid)

/-- Source `add_task` (the board part; the fresh uuid `tid` is passed in):
insert the task into `tasks`, then append its id to the named column. -/
def addTask (b : Board) (column_id tid : String) (t : Task) : Board :=
  ⟨extendFirst b.columns column_id [tid], setKey b.tasks tid t⟩

/-- Source `add_task` including its unconditional `save_board`: the second
component lists the boards passed to `save_board`. -/
def addTaskRun (b : Board) (column_id tid : String) (t : Task) : Board × List Board :=
  (addTask b column_id tid t, [addTask b column_id tid t])

/-- Partial update dictionary passed to `edit_task`. -/
structure TaskUpdates where
  title : Option String := none
  desc : Option String := none
  priority : Option Priority := none
  due : Option (Option IsoDate) := none
  tags : Option (List String) := none
  done : Option Bool := none
deriving DecidableEq, Repr

/-- Pydantic `model_copy(update=...)`: field-wise overwrite. -/
def applyUpdates (t : Task) (u : TaskUpdates) : Task :=
  { title := u.title.getD t.title
    desc := u.desc.getD t.desc
    priority := u.priority.getD t.priority
    due := u.due.getD t.due
    tags := u.tags.getD t.tags
    done := u.done.getD t.done }

/-- Source `edit_task`: missing task id or a merged result failing the
`min_length=1` title validation leaves the board unchanged and unsaved
(modelled by `none`); otherwise the updated board is returned and saved. -/
def editTask (b : Board) (task_id : String) (u : TaskUpdates) : Option Board :=
  match lookupKey b.tasks task_id with
  | none => none
  | some t =>
    let merged := applyUpdates t u
    if merged.title = "" then none
    else some ⟨b.columns, setKey b.tasks task_id merged⟩

/-- Python `list.remove(x)` guarded by `x in list`: drop the first occurrence. -/
def removeFirstStr (x : String) : List String → List String
  | [] => []
  | a :: rest => if a = x then rest else a :: removeFirstStr x rest

/-- Source `delete_task`: pop the task and strip the first occurrence of its
id from every column's task_ids. -/
def deleteTask (b : Board) (task_id : String) : Board :=
  ⟨b.columns.map (fun c => { c with task_ids := removeFirstStr task_id c.task_ids }),
   eraseKey b.tasks task_id⟩

/-- Source `add_column` (fresh uuid `cid` passed in): append an empty column. -/
def addColumn (b : Board) (name cid : String) : Board :=
  ⟨b.columns ++ [⟨cid, name, []⟩], b.tasks⟩

/-- Rename the first column with the given id (a `for`/`break` loop). -/
def renameFirst : List Column → String → String → List Column
  | [], _, _ => []
  | c :: rest, cid, nn =>
    if c.id = cid then { c with name := nn } :: rest
    else c :: renameFirst rest cid nn

/-- Source `rename_column`: rename the first matching column; the board is
saved in all cases, even when no column matches. -/
def renameColumn (b : Board) (column_id new_name : String) : Board :=
  ⟨renameFirst b.columns column_id new_name, b.tasks⟩

/-- First column with the given id, with the columns before and after it
(the `next((i for i, c in enumerate(...) if c.id == column_id), None)` search
together with the list decomposition at that index). -/
def findCol : List Column → String → Option (List Column × Column × List Column)
  | [], _ => none
  | c :: rest, cid =>
    if c.id = cid then some ([], c, rest)
    else
      match findCol rest cid with
      | none => none
      | some (pre, col, post) => some (c :: pre, col, post)

/-- Remove the first column with the given id (the `del b.columns[idx]` of
the source, where `idx` is the first matching index). -/
def removeFirstCol : List Column → String → List Column
  | [], _ => []
  | c :: rest, cid => if c.id = cid then rest else c :: removeFirstCol rest cid

/-- Python truthiness of the optional `move_tasks_to` argument: `None` and
the empty string are falsy. -/
def optTruthy : Option String → Bool
  | none => false
  | some s => !s.isEmpty

/-- Errors reported by `delete_column` (its two `st.error` early returns). -/
inductive DelErr where
  | columnNotFound
  | nonEmptyColumn
deriving DecidableEq, Repr

/-- Source `delete_column`: find the column; error (board unchanged, no save)
when absent, or when it has tasks and no truthy destination is given;
otherwise, when a truthy destination is given, extend the first column whose
id matches the destination (if any; no error when none matches) with the
source column's task_ids, then remove the source column. -/
def deleteColumn (b : Board) (column_id : String) (move_tasks_to : Option String) :
    Except DelErr Board :=
  match findCol b.columns column_id with
  | none => .error .columnNotFound
  | some (_, col, _) =>
    if col.task_ids ≠ [] ∧ optTruthy move_tasks_to = false then .error .nonEmptyColumn
    else
      let cols1 :=
        if optTruthy move_tasks_to then
          extendFirst b.columns (move_tasks_to.getD "") col.task_ids
        else b.columns
      .ok ⟨removeFirstCol cols1 column_id, b.tasks⟩

/-- Source `delete_column` including its save behaviour: on error the session
board is unchanged and `save_board` is not called. -/
def deleteColumnRun (b : Board) (column_id : String) (move_tasks_to : Option String) :
    Board × List Board :=
  match deleteColumn b column_id move_tasks_to with
  | .error _ => (b, [])
  | .ok b2 => (b2, [b2])

/-- Edit-modal move block: strip the first occurrence of the task id from
every column, then append it to every column whose id is the target
(the source has no `break` in the append loop). -/
def moveTask (b : Board) (task_id new_col_id : String) : Board :=
  let cols1 := b.columns.map (fun c => { c with task_ids := removeFirstStr task_id c.task_ids })
  ⟨cols1.map (fun c => if c.id = new_col_id then { c with task_ids := c.task_ids ++ [task_id] } else c),
   b.tasks⟩

/-- The invisible-unicode separator `"⁣"` of the source. -/
def hiddenChar : Char := '\u2063'

/-- Source `encode_item`: label, invisible separator, task id. -/
def encodeItem (label tid : String) : String := label ++ ⟨[hiddenChar]⟩ ++ tid

/-- Suffix after the last occurrence of a character (`rsplit(c, 1)[-1]`). -/
def afterLastChar (c : Char) (l : List Char) : List Char :=
  (l.reverse.takeWhile (fun a => a ≠ c)).reverse

/-- Whether a double colon occurs (`"::" in s`), scanning left to right. -/
def containsDC : List Char → Bool
  | [] => false
  | [_] => false
  | a :: b :: rest => ((a == ':') && (b == ':')) || containsDC (b :: rest)

/-- Everything before the first double colon (`split("::", 1)[0]`). -/
def beforeDC : List Char → List Char
  | [] => []
  | [a] => [a]
  | a :: b :: rest => if a = ':' ∧ b = ':' then [] else a :: beforeDC (b :: rest)

/-- Source `decode_item_id`: after the last invisible separator if one is
present, else before the first double colon if one is present, else the
token itself. -/
def decodeItemId (s : String) : String :=
  if s.data.contains hiddenChar then ⟨afterLastChar hiddenChar s.data⟩
  else if containsDC s.data then ⟨beforeDC s.data⟩
  else s

/-- Filter widget state: title substring, allowed priorities, required tags. -/
structure FilterSpec where
  titleFilter : String := ""
  prioFilter : List Priority := []
  tagsFilter : List String := []
deriving DecidableEq, Repr

/-- ASCII case folding of a string (Python `str.lower` restricted to the
ASCII range; the divergence on non-ASCII case mappings is irrelevant to the
claims, which never depend on the predicate's value). -/
def strLower (s : String) : String := ⟨s.data.map Char.toLower⟩

/-- Whether the first list is a prefix of the second. -/
def startsWithData : List Char → List Char → Bool
  | [], _ => true
  | nh :: nt, hay =>
    match hay with
    | [] => false
    | hh :: ht => nh == hh && startsWithData nt ht

/-- Contiguous substring test (Python `needle in hay` on strings). -/
def isSubstrData (needle : List Char) : List Char → Bool
  | [] => needle.isEmpty
  | b :: bs => startsWithData needle (b :: bs) || isSubstrData needle bs

/-- Source `pass_filter`: title substring (case-insensitive), priority
membership, tag intersection; an empty filter component always passes. -/
def passFilter (spec : FilterSpec) (t : Task) : Bool :=
  let okTitle :=
    if spec.titleFilter.isEmpty then true
    else isSubstrData (strLower spec.titleFilter).data (strLower t.title).data
  let okPrio := if spec.prioFilter.isEmpty then true else spec.prioFilter.contains t.priority
  let okTags := spec.tagsFilter.isEmpty || spec.tagsFilter.any (fun tg => t.tags.contains tg)
  okTitle && okPrio && okTags

/-- Source `item_label_multiline`: four-line card label. -/
def itemLabelMultiline (t : Task) : String :=
  String.intercalate "\n"
    [t.title.trim, t.desc.trim,
     (match t.due with | none => "" | some dt => toIso dt),
     "Priorytet: " ++ priorityText t.priority]

/-- Placeholder label for a task hidden by the active filter. -/
def obscuredLabel (t : Task) : String :=
  "(ukryte filtrem)\n\n\nPriorytet: " ++ priorityText t.priority

/-- Module-level payload loop: encode each task id of a column, with the real
label when the filter passes and the obscured label otherwise; ids whose task
is missing from `tasks` are skipped (`if not t: continue`). -/
def buildItems (b : Board) (spec : FilterSpec) : List String → List String
  | [] => []
  | tid :: rest =>
    match lookupKey b.tasks tid with
    | none => buildItems b spec rest
    | some t =>
      encodeItem (if passFilter spec t then itemLabelMultiline t else obscuredLabel t) tid
        :: buildItems b spec rest

/-- The containers sent to the drag-and-drop widget: header and items per
column, in column order. -/
def payload (b : Board) (spec : FilterSpec) : List (String × List String) :=
  b.columns.map (fun c => (c.name, buildItems b spec c.task_ids))

/-- Reorder reconciliation loop over the board's columns: the i-th column is
compared against the decoded i-th returned list (`normalized[i]` when in
range, `[]` otherwise — here structurally the head of the remaining lists);
a differing column gets its task_ids replaced and raises the changed flag. -/
def reconcileGo : List Column → List (List String) → List Column × Bool
  | [], _ => ([], false)
  | c :: rest, ns =>
    let newIds := (ns.headD []).map decodeItemId
    let r := reconcileGo rest ns.tail
    if newIds = c.task_ids then (c :: r.1, r.2)
    else ({ c with task_ids := newIds } :: r.1, true)

/-- Module-level reorder reconciliation: the updated board and the changed flag. -/
def reconcile (b : Board) (ns : List (List String)) : Board × Bool :=
  ((⟨(reconcileGo b.columns ns).1, b.tasks⟩ : Board), (reconcileGo b.columns ns).2)

/-- Reorder reconciliation including its persistence behaviour
(`if changed: save_board(b2)`): the boards passed to `save_board`. -/
def reorderStep (b : Board) (ns : List (List String)) : Board × Bool × List Board :=
  let r := reconcile b ns
  (r.1, r.2, if r.2 then [r.1] else [])

/-- Task shape of the persisted JSON document: `due` is an ISO date string,
or the empty string for a missing date. -/
structure RawTask where
  title : String
  desc : String
  priority : Priority
  due : String
  tags : List String
  done : Bool
deriving DecidableEq, Repr

/-- Board shape of the persisted JSON document. -/
structure RawBoard where
  columns : List Column
  tasks : List (String × RawTask)
deriving DecidableEq, Repr

/-- Serialization of one task by `model_dump(mode="json")` followed by the
export loop's `due: null` → `""` normalization. -/
def dumpTask (t : Task) : RawTask :=
  ⟨t.title, t.desc, t.priority,
   (match t.due with | none => "" | some dt => toIso dt),
   t.tags, t.done⟩

/-- Source `export_json_button`'s document: the board dumped to JSON with
every absent due date normalized to the empty string. -/
def exportBoard (b : Board) : RawBoard :=
  ⟨b.columns, b.tasks.map (fun p => (p.1, dumpTask p.2))⟩

/-- Source `Task.parse_due`: empty (or absent) value means no date, a string
is parsed with `date.fromisoformat`; the outer `none` models the raised
parse error. -/
def parseDue (s : String) : Option (Option IsoDate) :=
  if s = "" then some none else (fromIso s).map some

/-- Pydantic validation of one raw task: non-empty title, parseable due. -/
def parseTask (rt : RawTask) : Option Task :=
  if rt.title = "" then none
  else
    match parseDue rt.due with
    | none => none
    | some due => some ⟨rt.title, rt.desc, rt.priority, due, rt.tags, rt.done⟩

/-- Validation of the whole tasks dict, in order; first failure wins. -/
def parseTasks : List (String × RawTask) → Option (List (String × Task))
  | [] => some []
  | (k, rt) :: rest =>
    match parseTask rt, parseTasks rest with
    | some t, some ts => some ((k, t) :: ts)
    | _, _ => none

/-- Source `import_json_uploader`'s `Board(**raw)`: field validation of every
task, then the model validator `check_references`; `none` models a raised
validation error. -/
def importBoard (rb : RawBoard) : Option Board :=
  match parseTasks rb.tasks with
  | none => none
  | some ts => (validate ⟨rb.columns, ts⟩).toOption

/-- One mutation operation, with generated uuids made explicit. -/
inductive Op where
  | addTask (column_id : String) (t : Task) (tid : String)
  | editTask (task_id : String) (u : TaskUpdates)
  | deleteTask (task_id : String)
  | addColumn (name : String) (cid : String)
  | renameColumn (column_id new_name : String)
  | deleteColumn (column_id : String) (move_tasks_to : Option String)
  | moveTask (task_id new_col_id : String)
deriving DecidableEq, Repr

/-- Board mutation performed by one operation on the freshly loaded board;
`none` when the source returns without calling `save_board` (missing task id
in `edit_task`, either error of `delete_column`, failed revalidation). -/
def rawApply (b : Board) : Op → Option Board
  | .addTask cid t tid => some (addTask b cid tid t)
  | .editTask tid u => editTask b tid u
  | .deleteTask tid => some (deleteTask b tid)
  | .addColumn name cid => some (addColumn b name cid)
  | .renameColumn cid nn => some (renameColumn b cid nn)
  | .deleteColumn cid dest => (deleteColumn b cid dest).toOption
  | .moveTask tid cid => some (moveTask b tid cid)

/-- One operation as observed on the persisted board: every operation starts
with `get_board()`, which re-validates (and orphan-repairs) the stored data;
if validation fails, or the operation returns without saving, the stored
board stays as it was. -/
def applyOp (b : Board) (op : Op) : Board :=
  match validate b with
  | .error _ => b
  | .ok b0 => (rawApply b0 op).getD b

/-- A sequence of operations on the persisted board. -/
def applyOps (b : Board) (ops : List Op) : Board := ops.foldl applyOp b

/-- Side conditions of the uuid generator and of the edit-modal move (whose
task id is always picked from the current board): generated ids are fresh,
moved tasks exist. -/
def OpOk (b : Board) : Op → Prop
  | .addTask _ _ tid => ∀ p ∈ b.tasks, p.1 ≠ tid
  | .addColumn _ cid => ∀ c ∈ b.columns, c.id ≠ cid
  | .moveTask tid _ => tid ∈ keysOf b.tasks
  | _ => True

instance (b : Board) (op : Op) : Decidable (OpOk b op) := by
  cases op <;> simp only [OpOk] <;> exact inferInstance

/-- The freshness side conditions, threaded along a sequence. -/
def SeqOk : Board → List Op → Prop
  | _, [] => True
  | b, op :: rest => OpOk b op ∧ SeqOk (applyOp b op) rest

instance instDecidableSeqOk : (b : Board) → (ops : List Op) → Decidable (SeqOk b ops)
  | _, [] => .isTrue trivial
  | b, op :: rest =>
    @instDecidableAnd _ _ (inferInstance) (instDecidableSeqOk (applyOp b op) rest)

/-- Referential integrity, first half of the claimed invariant: every task id
referenced by any column exists in the tasks dict. -/
def RefsValid (b : Board) : Prop := ∀ tid ∈ allAssigned b, tid ∈ keysOf b.tasks

instance (b : Board) : Decidable (RefsValid b) := by
  unfold RefsValid; exact inferInstance

/-- Second half of the claimed invariant: no task id appears in the task_ids
of more than one column. -/
def AtMostOneColumn (b : Board) : Prop :=
  List.Pairwise (fun c1 c2 => ∀ tid ∈ c1.task_ids, tid ∉ c2.task_ids) b.columns

instance (b : Board) : Decidable (AtMostOneColumn b) := by
  unfold AtMostOneColumn; exact inferInstance

/-- Uniqueness of column ids (checked by the validator). -/
def NodupIds (b : Board) : Prop := (b.columns.map Column.id).Nodup

instance (b : Board) : Decidable (NodupIds b) := by
  unfold NodupIds; exact inferInstance

/-- The inductive well-formedness of a board: referential integrity, no task
id assigned twice anywhere (also not twice within a single column), unique
dict keys and unique column ids. -/
def Inv (b : Board) : Prop :=
  RefsValid b ∧ (allAssigned b).Nodup ∧ (keysOf b.tasks).Nodup ∧ NodupIds b

instance (b : Board) : Decidable (Inv b) := by
  unfold Inv; exact inferInstance

/-! Helper lemmas about the list and association-list primitives. -/

theorem joinTids_nil : joinTids [] = [] := rfl

theorem joinTids_cons (c : Column) (cols : List Column) :
    joinTids (c :: cols) = c.task_ids ++ joinTids cols := by
  simp [joinTids]

theorem joinTids_append (xs ys : List Column) :
    joinTids (xs ++ ys) = joinTids xs ++ joinTids ys := by
  simp [joinTids]

theorem keysOf_cons {α : Type} (p : String × α) (rest : List (String × α)) :
    keysOf (p :: rest) = p.1 :: keysOf rest := rfl

theorem keysOf_setKey_of_mem {α : Type} (l : List (String × α)) (k : String) (v : α)
    (h : k ∈ keysOf l) : keysOf (setKey l k v) = keysOf l := by
  induction l with
  | nil => simp [keysOf] at h
  | cons p rest ih =>
    rw [keysOf_cons] at h
    by_cases hk : p.1 = k
    · simp [setKey, hk, keysOf_cons]
    · have hr : k ∈ keysOf rest := by
        rcases List.mem_cons.mp h with h1 | h1
        · exact absurd h1.symm hk
        · exact h1
      rw [setKey]
      simp only [hk, if_false, keysOf_cons, ih hr]

theorem keysOf_setKey_of_not_mem {α : Type} (l : List (String × α)) (k : String) (v : α)
    (h : k ∉ keysOf l) : keysOf (setKey l k v) = keysOf l ++ [k] := by
  induction l with
  | nil => simp [setKey, keysOf]
  | cons p rest ih =>
    rw [keysOf_cons] at h
    have hk : p.1 ≠ k := fun he => h (List.mem_cons.mpr (Or.inl he.symm))
    have hr : k ∉ keysOf rest := fun hm => h (List.mem_cons.mpr (Or.inr hm))
    rw [setKey]
    simp only [hk, if_false]
    rw [keysOf_cons, keysOf_cons, ih hr, List.cons_append]

theorem lookupKey_eq_some_of_mem {α : Type} (l : List (String × α)) (k : String)
    (h : k ∈ keysOf l) : ∃ v, lookupKey l k = some v := by
  induction l with
  | nil => simp [keysOf] at h
  | cons p rest ih =>
    rw [keysOf_cons] at h
    by_cases hk : p.1 = k
    · exact ⟨p.2, by simp [lookupKey, hk]⟩
    · have hr : k ∈ keysOf rest := by
        rcases List.mem_cons.mp h with h1 | h1
        · exact absurd h1.symm hk
        · exact h1
      rcases ih hr with ⟨v, hv⟩
      exact ⟨v, by simp [lookupKey, hk, hv]⟩

theorem mem_keysOf_of_lookupKey {α : Type} (l : List (String × α)) (k : String) (v : α)
    (h : lookupKey l k = some v) : k ∈ keysOf l := by
  induction l with
  | nil => simp [lookupKey] at h
  | cons p rest ih =>
    by_cases hk : p.1 = k
    · rw [keysOf_cons]
      exact List.mem_cons.mpr (Or.inl hk.symm)
    · rw [lookupKey] at h
      simp only [hk, if_false] at h
      rw [keysOf_cons]
      exact List.mem_cons.mpr (Or.inr (ih h))

theorem keysOf_eraseKey_sublist {α : Type} (l : List (String × α)) (k : String) :
    (keysOf (eraseKey l k)).Sublist (keysOf l) := by
  induction l with
  | nil => simp [eraseKey, keysOf]
  | cons p rest ih =>
    by_cases hk : p.1 = k
    · rw [eraseKey]
      simp only [hk, if_true, keysOf_cons]
      exact List.sublist_cons_self _ _
    · rw [eraseKey]
      simp only [hk, if_false, keysOf_cons]
      exact List.Sublist.cons₂ p.1 ih

theorem mem_keysOf_eraseKey_of_ne {α : Type} (l : List (String × α)) (k x : String)
    (hx : x ∈ keysOf l) (hne : x ≠ k) :
    x ∈ keysOf (eraseKey l k) := by
  induction l with
  | nil => simp [keysOf] at hx
  | cons p rest ih =>
    rw [keysOf_cons] at hx
    by_cases hk : p.1 = k
    · rw [eraseKey]
      simp only [hk, if_true]
      rcases List.mem_cons.mp hx with h1 | h1
      · exact absurd (h1.trans hk) hne
      · exact h1
    · rw [eraseKey]
      simp only [hk, if_false, keysOf_cons]
      rcases List.mem_cons.mp hx with h1 | h1
      · exact List.mem_cons.mpr (Or.inl h1)
      · exact List.mem_cons.mpr (Or.inr (ih h1))

theorem removeFirstStr_sublist (x : String) (l : List String) :
    (removeFirstStr x l).Sublist l := by
  induction l with
  | nil => simp [removeFirstStr]
  | cons a rest ih =>
    by_cases ha : a = x
    · rw [removeFirstStr]
      simp only [ha, if_true]
      exact List.sublist_cons_self x rest
    · rw [removeFirstStr]
      simp only [ha, if_false]
      exact List.Sublist.cons₂ a ih

theorem not_mem_removeFirstStr_of_nodup (x : String) (l : List String) (h : l.Nodup) :
    x ∉ removeFirstStr x l := by
  induction l with
  | nil => simp [removeFirstStr]
  | cons a rest ih =>
    rcases List.nodup_cons.mp h with ⟨hna, hnd⟩
    by_cases ha : a = x
    · rw [removeFirstStr]
      simp only [ha, if_true]
      exact ha ▸ hna
    · rw [removeFirstStr]
      simp only [ha, if_false]
      intro hc
      rcases List.mem_cons.mp hc with h1 | h1
      · exact ha h1.symm
      · exact ih hnd h1

theorem containsId_cons (c : Column) (rest : List Column) (cid : String) :
    containsId (c :: rest) cid = ((c.id == cid) || containsId rest cid) := by
  simp [containsId]

theorem extendFirst_ids (cols : List Column) (cid : String) (new : List String) :
    (extendFirst cols cid new).map Column.id = cols.map Column.id := by
  induction cols with
  | nil => rfl
  | cons c rest ih =>
    by_cases hc : c.id = cid
    · simp [extendFirst, hc]
    · simp [extendFirst, hc, ih]

theorem extendFirst_of_not_contains (cols : List Column) (cid : String) (new : List String)
    (h : containsId cols cid = false) : extendFirst cols cid new = cols := by
  induction cols with
  | nil => rfl
  | cons c rest ih =>
    rw [containsId_cons, Bool.or_eq_false_iff] at h
    have hc : c.id ≠ cid := by simpa using h.1
    rw [extendFirst]
    simp only [hc, if_false]
    rw [ih h.2]

theorem extendFirst_join_of_contains (cols : List Column) (cid : String) (new : List String)
    (h : containsId cols cid = true) :
    (joinTids (extendFirst cols cid new)).Perm (joinTids cols ++ new) := by
  induction cols with
  | nil => simp [containsId] at h
  | cons c rest ih =>
    by_cases hc : c.id = cid
    · rw [extendFirst]
      simp only [hc, if_true]
      rw [joinTids_cons, joinTids_cons, List.append_assoc, List.append_assoc]
      exact List.Perm.append_left c.task_ids List.perm_append_comm
    · rw [containsId_cons, Bool.or_eq_true] at h
      have hr : containsId rest cid = true := by
        rcases h with h | h
        · exact absurd (by simpa using h) hc
        · exact h
      rw [extendFirst]
      simp only [hc, if_false]
      rw [joinTids_cons, joinTids_cons, List.append_assoc]
      exact List.Perm.append_left _ (ih hr)

theorem extendFirst_append_of_not_contains (xs ys : List Column) (cid : String)
    (new : List String) (h : containsId xs cid = false) :
    extendFirst (xs ++ ys) cid new = xs ++ extendFirst ys cid new := by
  induction xs with
  | nil => rfl
  | cons c rest ih =>
    rw [containsId_cons, Bool.or_eq_false_iff] at h
    have hc : c.id ≠ cid := by simpa using h.1
    rw [List.cons_append, extendFirst]
    simp only [hc, if_false]
    rw [ih h.2, List.cons_append]

theorem extendFirst_append_of_contains (xs ys : List Column) (cid : String)
    (new : List String) (h : containsId xs cid = true) :
    extendFirst (xs ++ ys) cid new = extendFirst xs cid new ++ ys := by
  induction xs with
  | nil => simp [containsId] at h
  | cons c rest ih =>
    by_cases hc : c.id = cid
    · rw [List.cons_append, extendFirst, extendFirst]
      simp only [hc, if_true]
      rw [List.cons_append]
    · rw [containsId_cons, Bool.or_eq_true] at h
      have hr : containsId rest cid = true := by
        rcases h with h | h
        · exact absurd (by simpa using h) hc
        · exact h
      rw [List.cons_append, extendFirst, extendFirst]
      simp only [hc, if_false]
      rw [ih hr, List.cons_append]

theorem findCol_of_decomp (pre : List Column) (col : Column) (post : List Column)
    (cid : String) (hpre : ∀ c ∈ pre, c.id ≠ cid) (hcol : col.id = cid) :
    findCol (pre ++ col :: post) cid = some (pre, col, post) := by
  induction pre with
  | nil =>
    rw [List.nil_append, findCol]
    simp only [hcol, if_true]
  | cons c rest ih =>
    have hc : c.id ≠ cid := hpre c (by simp)
    have hrest : ∀ x ∈ rest, x.id ≠ cid := fun x hx => hpre x (by simp [hx])
    rw [List.cons_append, findCol]
    simp only [hc, if_false]
    rw [ih hrest]

theorem findCol_spec (cols : List Column) (cid : String) :
    ∀ pre col post, findCol cols cid = some (pre, col, post) →
      cols = pre ++ col :: post ∧ (∀ c ∈ pre, c.id ≠ cid) ∧ col.id = cid := by
  induction cols with
  | nil => intro pre col post h; simp [findCol] at h
  | cons c rest ih =>
    intro pre col post h
    rw [findCol] at h
    by_cases hc : c.id = cid
    · simp only [hc, if_true, Option.some.injEq, Prod.mk.injEq] at h
      obtain ⟨h1, h2, h3⟩ := h
      subst h1; subst h2; subst h3
      exact ⟨rfl, by simp, hc⟩
    · simp only [hc, if_false] at h
      cases hrec : findCol rest cid with
      | none => rw [hrec] at h; exact absurd h (by simp)
      | some trip =>
        obtain ⟨pre1, col1, post1⟩ := trip
        rw [hrec] at h
        simp only [Option.some.injEq, Prod.mk.injEq] at h
        obtain ⟨h1, h2, h3⟩ := h
        rcases ih pre1 col1 post1 hrec with ⟨e1, e2, e3⟩
        subst h1; subst h2; subst h3
        refine ⟨by rw [e1, List.cons_append], ?_, e3⟩
        intro x hx
        rcases List.mem_cons.mp hx with hx | hx
        · exact hx ▸ hc
        · exact e2 x hx

theorem findCol_eq_none (cols : List Column) (cid : String)
    (h : ∀ c ∈ cols, c.id ≠ cid) : findCol cols cid = none := by
  induction cols with
  | nil => rfl
  | cons c rest ih =>
    have hc : c.id ≠ cid := h c (by simp)
    rw [findCol]
    simp only [hc, if_false]
    rw [ih (fun x hx => h x (by simp [hx]))]

theorem removeFirstCol_decomp (pre : List Column) (col : Column) (post : List Column)
    (cid : String) (hpre : ∀ c ∈ pre, c.id ≠ cid) (hcol : col.id = cid) :
    removeFirstCol (pre ++ col :: post) cid = pre ++ post := by
  induction pre with
  | nil =>
    rw [List.nil_append, removeFirstCol]
    simp only [hcol, if_true]
    rw [List.nil_append]
  | cons c rest ih =>
    have hc : c.id ≠ cid := hpre c (by simp)
    rw [List.cons_append, removeFirstCol]
    simp only [hc, if_false]
    rw [ih (fun x hx => hpre x (by simp [hx])), List.cons_append]

/-! Sorting lemmas for `sortStrings`. -/

theorem insertStr_perm (x : String) (l : List String) :
    (insertStr x l).Perm (x :: l) := by
  induction l with
  | nil => rfl
  | cons y ys ih =>
    by_cases hle : strLe x y
    · simp [insertStr, hle]
    · rw [insertStr]
      simp only [hle, if_false]
      exact (List.Perm.cons y ih).trans (List.Perm.swap x y ys)

theorem sortStrings_perm (l : List String) : (sortStrings l).Perm l := by
  induction l with
  | nil => rfl
  | cons x xs ih =>
    exact (insertStr_perm x (sortStrings xs)).trans (List.Perm.cons x ih)

theorem strLeData_total (a : List Char) : ∀ b, strLeData a b = true ∨ strLeData b a = true := by
  induction a with
  | nil => intro b; left; rfl
  | cons x xs ih =>
    intro b
    cases b with
    | nil => right; rfl
    | cons y ys =>
      rcases Nat.lt_trichotomy x.toNat y.toNat with h | h | h
      · left; simp [strLeData, h]
      · rcases ih ys with h2 | h2
        · left; simp [strLeData, h, Nat.lt_irrefl, h2]
        · right; simp [strLeData, h.symm, Nat.lt_irrefl, h2]
      · right; simp [strLeData, h]

theorem strLeData_trans (a : List Char) :
    ∀ b c, strLeData a b = true → strLeData b c = true → strLeData a c = true := by
  induction a with
  | nil => intro b c _ _; rfl
  | cons x xs ih =>
    intro b c hab hbc
    cases b with
    | nil => rw [strLeData] at hab; exact absurd hab (by simp)
    | cons y ys =>
      cases c with
      | nil => rw [strLeData] at hbc; exact absurd hbc (by simp)
      | cons z zs =>
        rw [strLeData] at hab hbc ⊢
        by_cases hxy : x.toNat < y.toNat
        · by_cases hyz : y.toNat < z.toNat
          · have : x.toNat < z.toNat := Nat.lt_trans hxy hyz
            simp [this]
          · simp only [hyz, if_false] at hbc
            by_cases heyz : y.toNat = z.toNat
            · have : x.toNat < z.toNat := heyz ▸ hxy
              simp [this]
            · simp [heyz] at hbc
        · simp only [hxy, if_false] at hab
          by_cases hexy : x.toNat = y.toNat
          · simp only [hexy, if_true] at hab
            by_cases hyz : y.toNat < z.toNat
            · have : x.toNat < z.toNat := hexy ▸ hyz
              simp [this]
            · simp only [hyz, if_false] at hbc
              by_cases heyz : y.toNat = z.toNat
              · simp only [heyz, if_true] at hbc
                have hxz : x.toNat = z.toNat := hexy.trans heyz
                have hnlt : ¬ x.toNat < z.toNat := by omega
                simp [hnlt, hxz, ih ys zs hab hbc]
              · simp [heyz] at hbc
          · simp [hexy] at hab

theorem strLe_total (a b : String) : strLe a b = true ∨ strLe b a = true :=
  strLeData_total a.data b.data

theorem strLe_trans (a b c : String) (h1 : strLe a b = true) (h2 : strLe b c = true) :
    strLe a c = true :=
  strLeData_trans a.data b.data c.data h1 h2

theorem pairwise_insertStr (x : String) (l : List String)
    (h : List.Pairwise (fun a b => strLe a b = true) l) :
    List.Pairwise (fun a b => strLe a b = true) (insertStr x l) := by
  induction l with
  | nil => simp [insertStr]
  | cons y ys ih =>
    rcases List.pairwise_cons.mp h with ⟨hy, hys⟩
    by_cases hle : strLe x y
    · rw [insertStr]
      simp only [hle, if_true]
      refine List.pairwise_cons.mpr ⟨?_, h⟩
      intro z hz
      rcases List.mem_cons.mp hz with hz | hz
      · exact hz ▸ hle
      · exact strLe_trans x y z hle (hy z hz)
    · rw [insertStr]
      simp only [hle, if_false]
      refine List.pairwise_cons.mpr ⟨?_, ih hys⟩
      intro z hz
      have hz2 : z ∈ x :: ys := (insertStr_perm x ys).mem_iff.mp hz
      rcases List.mem_cons.mp hz2 with hz2 | hz2
      · rcases strLe_total x y with ht | ht
        · exact absurd ht hle
        · rw [hz2]; exact ht
      · exact hy z hz2

theorem sortStrings_sorted (l : List String) :
    List.Pairwise (fun a b => strLe a b = true) (sortStrings l) := by
  induction l with
  | nil => simp [sortStrings]
  | cons x xs ih => exact pairwise_insertStr x (sortStrings xs) ih

/-! Lemmas about joined task ids and the validator. -/

theorem mem_joinTids (x : String) (cols : List Column) :
    x ∈ joinTids cols ↔ ∃ c ∈ cols, x ∈ c.task_ids := by
  simp [joinTids]

theorem containsId_iff (cols : List Column) (cid : String) :
    containsId cols cid = true ↔ cid ∈ cols.map Column.id := by
  simp only [containsId, List.any_eq_true, beq_iff_eq, List.mem_map]

theorem ids_map_of_id_preserved (g : Column → Column) (h : ∀ c, (g c).id = c.id)
    (cols : List Column) : (cols.map g).map Column.id = cols.map Column.id := by
  induction cols with
  | nil => rfl
  | cons c rest ih => simp [h, ih]

theorem joinTids_map_removeFirstStr_sublist (tid : String) (cols : List Column) :
    (joinTids (cols.map (fun c => { c with task_ids := removeFirstStr tid c.task_ids }))).Sublist
      (joinTids cols) := by
  induction cols with
  | nil => simp [joinTids]
  | cons c rest ih =>
    rw [List.map_cons, joinTids_cons, joinTids_cons]
    exact List.Sublist.append (removeFirstStr_sublist tid c.task_ids) ih

theorem not_mem_joinTids_map_removeFirstStr (tid : String) (cols : List Column)
    (h : (joinTids cols).Nodup) :
    tid ∉ joinTids (cols.map (fun c => { c with task_ids := removeFirstStr tid c.task_ids })) := by
  induction cols with
  | nil => simp [joinTids]
  | cons c rest ih =>
    rw [joinTids_cons] at h
    rcases List.nodup_append.mp h with ⟨h1, h2, _⟩
    rw [List.map_cons, joinTids_cons]
    intro hm
    rcases List.mem_append.mp hm with hm | hm
    · exact not_mem_removeFirstStr_of_nodup tid c.task_ids h1 hm
    · exact ih h2 hm

theorem checkColumns_eq_none_iff (keys : List String) (cols : List Column) :
    ∀ seen, checkColumns keys seen cols = none ↔
      ((∀ c ∈ cols, c.id ∉ seen) ∧ (cols.map Column.id).Nodup ∧
        (∀ c ∈ cols, ∀ tid ∈ c.task_ids, tid ∈ keys)) := by
  induction cols with
  | nil => intro seen; simp [checkColumns]
  | cons c rest ih =>
    intro seen
    rw [checkColumns]
    by_cases hs : c.id ∈ seen
    · simp only [hs, if_true]
      constructor
      · intro h; exact absurd h (by simp)
      · rintro ⟨h1, _, _⟩; exact absurd hs (h1 c (by simp))
    · simp only [hs, if_false]
      cases hf : c.task_ids.find? (fun tid => !(keys.contains tid)) with
      | some tid =>
        simp only [hf]
        constructor
        · intro h; exact absurd h (by simp)
        · rintro ⟨_, _, h3⟩
          have hmem := List.mem_of_find?_eq_some hf
          have hp := List.find?_some hf
          have hp2 : tid ∉ keys := by simpa using hp
          exact absurd (h3 c (by simp) tid hmem) hp2
      | none =>
        simp only [hf]
        rw [ih (c.id :: seen)]
        have hrefsc : ∀ tid ∈ c.task_ids, tid ∈ keys := by
          intro tid htid
          have := List.find?_eq_none.mp hf tid htid
          simpa using this
        constructor
        · rintro ⟨h1, h2, h3⟩
          refine ⟨?_, ?_, ?_⟩
          · intro x hx
            rcases List.mem_cons.mp hx with hx | hx
            · subst hx; exact hs
            · intro hcon
              exact (h1 x hx) (List.mem_cons.mpr (Or.inr hcon))
          · rw [List.map_cons, List.nodup_cons]
            refine ⟨?_, h2⟩
            intro hcon
            rcases List.mem_map.mp hcon with ⟨x, hx, hex⟩
            exact (h1 x hx) (List.mem_cons.mpr (Or.inl hex))
          · intro x hx
            rcases List.mem_cons.mp hx with hx | hx
            · subst hx; exact hrefsc
            · exact h3 x hx
        · rintro ⟨h1, h2, h3⟩
          rw [List.map_cons, List.nodup_cons] at h2
          refine ⟨?_, h2.2, ?_⟩
          · intro x hx hcon
            rcases List.mem_cons.mp hcon with hc2 | hc2
            · exact h2.1 (List.mem_map.mpr ⟨x, hx, hc2⟩)
            · exact (h1 x (List.mem_cons.mpr (Or.inr hx))) hc2
          · intro x hx
            exact h3 x (List.mem_cons.mpr (Or.inr hx))

theorem checkColumns_dup_not_nodup (keys : List String) (cols : List Column) (cid : String) :
    ∀ seen, checkColumns keys seen cols = some (.duplicateColumnId cid) →
      ¬ (seen ++ cols.map Column.id).Nodup := by
  induction cols with
  | nil => intro seen h; simp [checkColumns] at h
  | cons c rest ih =>
    intro seen h
    rw [checkColumns] at h
    by_cases hs : c.id ∈ seen
    · intro hnd
      rw [List.map_cons] at hnd
      rcases List.nodup_append.mp hnd with ⟨_, _, hdisj⟩
      exact hdisj hs (List.mem_cons_self c.id _)
    · simp only [hs, if_false] at h
      cases hf : c.task_ids.find? (fun tid => !(keys.contains tid)) with
      | some tid => rw [hf] at h; exact absurd h (by simp)
      | none =>
        rw [hf] at h
        intro hnd
        apply ih (c.id :: seen) h
        rw [List.map_cons] at hnd
        have hp : (seen ++ c.id :: rest.map Column.id).Perm
            (c.id :: (seen ++ rest.map Column.id)) := List.perm_middle
        rw [List.cons_append]
        exact hp.nodup hnd

theorem checkColumns_dangling_spec (keys : List String) (cols : List Column)
    (tid cname : String) :
    ∀ seen, checkColumns keys seen cols = some (.danglingTask tid cname) →
      ∃ c ∈ cols, c.name = cname ∧ tid ∈ c.task_ids ∧ tid ∉ keys := by
  induction cols with
  | nil => intro seen h; simp [checkColumns] at h
  | cons c rest ih =>
    intro seen h
    rw [checkColumns] at h
    by_cases hs : c.id ∈ seen
    · simp only [hs, if_true] at h
      exact absurd h (by simp)
    · simp only [hs, if_false] at h
      cases hf : c.task_ids.find? (fun t2 => !(keys.contains t2)) with
      | some t2 =>
        rw [hf] at h
        simp only [Option.some.injEq, BoardError.danglingTask.injEq] at h
        obtain ⟨h1, h2⟩ := h
        have hmem := List.mem_of_find?_eq_some hf
        have hp : t2 ∉ keys := by simpa using List.find?_some hf
        exact ⟨c, by simp, h2, h1 ▸ hmem, h1 ▸ hp⟩
      | none =>
        rw [hf] at h
        rcases ih (c.id :: seen) h with ⟨c2, hc2, hn, hm, hk⟩
        exact ⟨c2, List.mem_cons.mpr (Or.inr hc2), hn, hm, hk⟩

theorem perColumnRefs_of_refsValid (b : Board) (h : RefsValid b) :
    ∀ c ∈ b.columns, ∀ tid ∈ c.task_ids, tid ∈ keysOf b.tasks := by
  intro c hc tid htid
  exact h tid ((mem_joinTids tid b.columns).mpr ⟨c, hc, htid⟩)

theorem refsValid_of_perColumnRefs (b : Board)
    (h : ∀ c ∈ b.columns, ∀ tid ∈ c.task_ids, tid ∈ keysOf b.tasks) : RefsValid b := by
  intro tid htid
  rcases (mem_joinTids tid b.columns).mp htid with ⟨c, hc, hm⟩
  exact h c hc tid hm

theorem validate_ok_of (b : Board) (h1 : NodupIds b) (h2 : RefsValid b) :
    validate b = .ok (repairOrphans b) := by
  unfold validate
  have hnone := (checkColumns_eq_none_iff (keysOf b.tasks) b.columns []).mpr
    ⟨fun c _ => by simp, h1, perColumnRefs_of_refsValid b h2⟩
  rw [hnone]

theorem validate_isOk_iff (b : Board) :
    (validate b).isOk = true ↔ (NodupIds b ∧ RefsValid b) := by
  constructor
  · intro h
    unfold validate at h
    cases hc : checkColumns (keysOf b.tasks) [] b.columns with
    | some e => rw [hc] at h; simp [Except.isOk, Except.toBool] at h
    | none =>
      rcases (checkColumns_eq_none_iff (keysOf b.tasks) b.columns []).mp hc with ⟨_, hn, hr⟩
      exact ⟨hn, refsValid_of_perColumnRefs b hr⟩
  · rintro ⟨h1, h2⟩
    rw [validate_ok_of b h1 h2]
    rfl

theorem validate_dup_spec (b : Board) (cid : String)
    (h : validate b = .error (.duplicateColumnId cid)) : ¬ NodupIds b := by
  unfold validate at h
  cases hc : checkColumns (keysOf b.tasks) [] b.columns with
  | some e =>
    rw [hc] at h
    simp only [Except.error.injEq] at h
    subst h
    have := checkColumns_dup_not_nodup (keysOf b.tasks) b.columns cid [] hc
    simpa [NodupIds] using this
  | none => rw [hc] at h; exact absurd h (by simp)

theorem validate_dangling_spec (b : Board) (tid cname : String)
    (h : validate b = .error (.danglingTask tid cname)) :
    ∃ c ∈ b.columns, c.name = cname ∧ tid ∈ c.task_ids ∧ tid ∉ keysOf b.tasks := by
  unfold validate at h
  cases hc : checkColumns (keysOf b.tasks) [] b.columns with
  | some e =>
    rw [hc] at h
    simp only [Except.error.injEq] at h
    subst h
    exact checkColumns_dangling_spec (keysOf b.tasks) b.columns tid cname [] hc
  | none => rw [hc] at h; exact absurd h (by simp)

theorem orphansOf_eq_nil_of_all_assigned (b : Board)
    (h : ∀ k ∈ keysOf b.tasks, k ∈ allAssigned b) : orphansOf b = [] := by
  unfold orphansOf
  rw [List.filter_eq_nil_iff]
  intro k hk
  simp [h k hk]

theorem repairOrphans_of_no_orphans (b : Board) (h : orphansOf b = []) :
    repairOrphans b = b := by
  unfold repairOrphans
  split
  · rfl
  · simp [h]

theorem repairOrphans_cons (c0 : Column) (rest : List Column) (tasks : List (String × Task)) :
    repairOrphans ⟨c0 :: rest, tasks⟩ =
      ⟨{ c0 with task_ids := c0.task_ids ++ sortStrings (orphansOf ⟨c0 :: rest, tasks⟩) } :: rest,
        tasks⟩ := by
  unfold repairOrphans
  by_cases h : orphansOf ⟨c0 :: rest, tasks⟩ = []
  · simp [h, sortStrings]
  · simp [h]

theorem pairwise_disjoint_of_nodup_joinTids (cols : List Column)
    (h : (joinTids cols).Nodup) :
    List.Pairwise (fun c1 c2 => ∀ tid ∈ c1.task_ids, tid ∉ c2.task_ids) cols := by
  induction cols with
  | nil => simp
  | cons c rest ih =>
    rw [joinTids_cons] at h
    rcases List.nodup_append.mp h with ⟨_, h2, hdisj⟩
    refine List.pairwise_cons.mpr ⟨?_, ih h2⟩
    intro c2 hc2 tid htid hmem
    exact hdisj htid ((mem_joinTids tid rest).mpr ⟨c2, hc2, hmem⟩)

/-! Lemmas about the mutation operations. -/

theorem not_mem_keysOf_iff {α : Type} (l : List (String × α)) (k : String) :
    k ∉ keysOf l ↔ ∀ p ∈ l, p.1 ≠ k := by
  unfold keysOf
  rw [List.mem_map]
  push_neg
  constructor
  · intro h p hp; exact h p hp
  · intro h p hp; exact h p hp

theorem renameFirst_ids (cols : List Column) (cid nn : String) :
    (renameFirst cols cid nn).map Column.id = cols.map Column.id := by
  induction cols with
  | nil => rfl
  | cons c rest ih =>
    by_cases hc : c.id = cid
    · simp [renameFirst, hc]
    · simp [renameFirst, hc, ih]

theorem renameFirst_join (cols : List Column) (cid nn : String) :
    joinTids (renameFirst cols cid nn) = joinTids cols := by
  induction cols with
  | nil => rfl
  | cons c rest ih =>
    by_cases hc : c.id = cid
    · simp [renameFirst, hc, joinTids_cons]
    · simp [renameFirst, hc, joinTids_cons, ih]

theorem map_appendIf_of_not_contains (cols : List Column) (cid tid : String)
    (h : containsId cols cid = false) :
    cols.map (fun c => if c.id = cid then { c with task_ids := c.task_ids ++ [tid] } else c)
      = cols := by
  induction cols with
  | nil => rfl
  | cons c rest ih =>
    rw [containsId_cons, Bool.or_eq_false_iff] at h
    have hc : c.id ≠ cid := by simpa using h.1
    simp [hc, ih h.2]

theorem joinTids_map_appendIf (cols : List Column) (cid tid : String)
    (hn : (cols.map Column.id).Nodup) :
    (joinTids (cols.map
        (fun c => if c.id = cid then { c with task_ids := c.task_ids ++ [tid] } else c))).Perm
      (joinTids cols ++ [tid]) ∨
    cols.map (fun c => if c.id = cid then { c with task_ids := c.task_ids ++ [tid] } else c)
      = cols := by
  induction cols with
  | nil => right; rfl
  | cons c rest ih =>
    rw [List.map_cons, List.nodup_cons] at hn
    by_cases hc : c.id = cid
    · left
      have hrest : containsId rest cid = false := by
        cases hcr : containsId rest cid with
        | false => rfl
        | true => exact absurd (hc ▸ (containsId_iff rest cid).mp hcr) hn.1
      rw [List.map_cons]
      simp only [hc, if_true]
      rw [map_appendIf_of_not_contains rest cid tid hrest]
      rw [joinTids_cons, joinTids_cons, List.append_assoc, List.append_assoc]
      exact List.Perm.append_left c.task_ids List.perm_append_comm
    · rw [List.map_cons]
      simp only [hc, if_false]
      rcases ih hn.2 with hperm | heq
      · left
        rw [joinTids_cons, joinTids_cons, List.append_assoc]
        exact List.Perm.append_left c.task_ids hperm
      · right
        rw [heq]

theorem inv_of_columns_weaker (b : Board) (cols2 : List Column)
    (hmem : ∀ x ∈ joinTids cols2, x ∈ joinTids b.columns)
    (hnd : (joinTids cols2).Nodup)
    (hids : (cols2.map Column.id).Nodup)
    (hInv : Inv b) : Inv ⟨cols2, b.tasks⟩ := by
  obtain ⟨hrefs, _, hkeys, _⟩ := hInv
  exact ⟨fun tid htid => hrefs tid (hmem tid htid), hnd, hkeys, hids⟩

theorem mem_keysOf_of_mem_orphansOf (b : Board) (x : String) (h : x ∈ orphansOf b) :
    x ∈ keysOf b.tasks := by
  unfold orphansOf at h
  exact List.mem_of_mem_filter h

theorem not_mem_assigned_of_mem_orphansOf (b : Board) (x : String) (h : x ∈ orphansOf b) :
    x ∉ allAssigned b := by
  unfold orphansOf at h
  have := List.of_mem_filter h
  simpa using this

theorem nodup_orphansOf (b : Board) (h : (keysOf b.tasks).Nodup) : (orphansOf b).Nodup :=
  List.Nodup.filter _ h

theorem repairOrphans_tasks (b : Board) : (repairOrphans b).tasks = b.tasks := by
  unfold repairOrphans
  split
  · rfl
  · split
    · rfl
    · rfl

theorem repairOrphans_ids (b : Board) :
    (repairOrphans b).columns.map Column.id = b.columns.map Column.id := by
  unfold repairOrphans
  split
  · rfl
  · rename_i c0 rest heq
    split
    · rfl
    · rw [heq]
      simp

theorem inv_repairOrphans (b : Board) (hInv : Inv b) : Inv (repairOrphans b) := by
  obtain ⟨hrefs, hjoin, hkeys, hids⟩ := hInv
  obtain ⟨cols, tasks⟩ := b
  cases cols with
  | nil => exact ⟨hrefs, hjoin, hkeys, hids⟩
  | cons c0 rest =>
    rw [repairOrphans_cons]
    set bb : Board := ⟨c0 :: rest, tasks⟩ with hbb
    have hsp : (sortStrings (orphansOf bb)).Perm (orphansOf bb) := sortStrings_perm _
    have hperm : (joinTids ({ c0 with task_ids := c0.task_ids ++ sortStrings (orphansOf bb) } :: rest)).Perm (joinTids (c0 :: rest) ++ orphansOf bb) := by
      rw [joinTids_cons, joinTids_cons, List.append_assoc, List.append_assoc]
      refine List.Perm.append_left c0.task_ids ?_
      exact (List.Perm.append_right _ hsp).trans List.perm_append_comm
    have hnodup2 : (joinTids (c0 :: rest) ++ orphansOf bb).Nodup := by
      rw [List.nodup_append]
      refine ⟨hjoin, nodup_orphansOf bb hkeys, ?_⟩
      intro x hx hox
      exact (not_mem_assigned_of_mem_orphansOf bb x hox) hx
    refine ⟨?_, hperm.symm.nodup hnodup2, hkeys, ?_⟩
    · intro tid htid
      have := hperm.mem_iff.mp htid
      rcases List.mem_append.mp this with hm | hm
      · exact hrefs tid hm
      · exact mem_keysOf_of_mem_orphansOf bb tid hm
    · simpa using hids

theorem inv_mk_iff (cols : List Column) (ts : List (String × Task)) :
    Inv ⟨cols, ts⟩ ↔ ((∀ x ∈ joinTids cols, x ∈ keysOf ts) ∧ (joinTids cols).Nodup ∧
      (keysOf ts).Nodup ∧ (cols.map Column.id).Nodup) := Iff.rfl

theorem inv_addTask (b : Board) (cid tid : String) (t : Task) (hInv : Inv b)
    (hfresh : tid ∉ keysOf b.tasks) : Inv (addTask b cid tid t) := by
  obtain ⟨hrefs, hjoin, hkeys, hids⟩ := hInv
  have hkeys2 : keysOf (setKey b.tasks tid t) = keysOf b.tasks ++ [tid] :=
    keysOf_setKey_of_not_mem b.tasks tid t hfresh
  have hknd : (keysOf (setKey b.tasks tid t)).Nodup := by
    rw [hkeys2, List.nodup_append]
    refine ⟨hkeys, List.nodup_singleton tid, ?_⟩
    intro x hx hx2
    rcases List.mem_singleton.mp hx2 with rfl
    exact hfresh hx
  have htidnj : tid ∉ joinTids b.columns := fun hc => hfresh (hrefs tid hc)
  show Inv ⟨extendFirst b.columns cid [tid], setKey b.tasks tid t⟩
  rw [inv_mk_iff]
  by_cases hcon : containsId b.columns cid = true
  · have hperm := extendFirst_join_of_contains b.columns cid [tid] hcon
    refine ⟨?_, ?_, hknd, ?_⟩
    · intro x hx
      have hm0 := hperm.mem_iff.mp hx
      rw [hkeys2]
      rcases List.mem_append.mp hm0 with hm | hm
      · exact List.mem_append.mpr (Or.inl (hrefs x hm))
      · exact List.mem_append.mpr (Or.inr hm)
    · refine hperm.symm.nodup ?_
      rw [List.nodup_append]
      refine ⟨hjoin, List.nodup_singleton tid, ?_⟩
      intro x hx hx2
      rcases List.mem_singleton.mp hx2 with rfl
      exact htidnj hx
    · rw [extendFirst_ids]
      exact hids
  · have heq := extendFirst_of_not_contains b.columns cid [tid]
      (by cases hcc : containsId b.columns cid with
        | false => rfl
        | true => exact absurd hcc hcon)
    rw [heq, hkeys2]
    refine ⟨?_, hjoin, hkeys2 ▸ hknd, hids⟩
    intro x hx
    exact List.mem_append.mpr (Or.inl (hrefs x hx))

theorem inv_editTask (b : Board) (tid : String) (u : TaskUpdates) (hInv : Inv b) :
    ∀ b2, editTask b tid u = some b2 → Inv b2 := by
  intro b2 h
  obtain ⟨hrefs, hjoin, hkeys, hids⟩ := hInv
  unfold editTask at h
  cases hl : lookupKey b.tasks tid with
  | none => rw [hl] at h; exact absurd h (by simp)
  | some t =>
    rw [hl] at h
    dsimp only at h
    by_cases ht : (applyUpdates t u).title = ""
    · rw [if_pos ht] at h; exact absurd h (by simp)
    · rw [if_neg ht] at h
      simp only [Option.some.injEq] at h
      subst h
      have hmem : tid ∈ keysOf b.tasks := mem_keysOf_of_lookupKey b.tasks tid t hl
      have hk2 : keysOf (setKey b.tasks tid (applyUpdates t u)) = keysOf b.tasks :=
        keysOf_setKey_of_mem b.tasks tid (applyUpdates t u) hmem
      rw [inv_mk_iff, hk2]
      exact ⟨hrefs, hjoin, hkeys, hids⟩

theorem inv_deleteTask (b : Board) (tid : String) (hInv : Inv b) :
    Inv (deleteTask b tid) := by
  obtain ⟨hrefs, hjoin, hkeys, hids⟩ := hInv
  have hsub := joinTids_map_removeFirstStr_sublist tid b.columns
  have hnm := not_mem_joinTids_map_removeFirstStr tid b.columns hjoin
  show Inv ⟨b.columns.map (fun c => { c with task_ids := removeFirstStr tid c.task_ids }),
    eraseKey b.tasks tid⟩
  rw [inv_mk_iff]
  refine ⟨?_, hsub.nodup hjoin, (keysOf_eraseKey_sublist b.tasks tid).nodup hkeys, ?_⟩
  · intro x hx
    have hxo : x ∈ joinTids b.columns := hsub.mem hx
    have hxne : x ≠ tid := fun he => hnm (he ▸ hx)
    exact mem_keysOf_eraseKey_of_ne b.tasks tid x (hrefs x hxo) hxne
  · rw [ids_map_of_id_preserved
      (fun c => { c with task_ids := removeFirstStr tid c.task_ids }) (fun c => rfl)]
    exact hids

theorem inv_addColumn (b : Board) (name cid : String) (hInv : Inv b)
    (hfresh : ∀ c ∈ b.columns, c.id ≠ cid) : Inv (addColumn b name cid) := by
  obtain ⟨hrefs, hjoin, hkeys, hids⟩ := hInv
  have hje : joinTids (b.columns ++ [⟨cid, name, []⟩]) = joinTids b.columns := by
    rw [joinTids_append]
    simp [joinTids]
  show Inv ⟨b.columns ++ [⟨cid, name, []⟩], b.tasks⟩
  rw [inv_mk_iff, hje]
  refine ⟨hrefs, hjoin, hkeys, ?_⟩
  rw [List.map_append, List.nodup_append]
  refine ⟨hids, by simp, ?_⟩
  intro x hx hx2
  simp only [List.map_cons, List.map_nil, List.mem_singleton] at hx2
  rcases List.mem_map.mp hx with ⟨c, hc, he⟩
  exact (hfresh c hc) (by rw [he, hx2])

theorem inv_renameColumn (b : Board) (cid nn : String) (hInv : Inv b) :
    Inv (renameColumn b cid nn) := by
  obtain ⟨hrefs, hjoin, hkeys, hids⟩ := hInv
  show Inv ⟨renameFirst b.columns cid nn, b.tasks⟩
  rw [inv_mk_iff, renameFirst_join, renameFirst_ids]
  exact ⟨hrefs, hjoin, hkeys, hids⟩

theorem inv_moveTask (b : Board) (tid cid : String) (hInv : Inv b)
    (hmem : tid ∈ keysOf b.tasks) : Inv (moveTask b tid cid) := by
  obtain ⟨hrefs, hjoin, hkeys, hids⟩ := hInv
  have hsub := joinTids_map_removeFirstStr_sublist tid b.columns
  have hnm := not_mem_joinTids_map_removeFirstStr tid b.columns hjoin
  have hnd1 := hsub.nodup hjoin
  have hids1 : ((b.columns.map (fun c => { c with task_ids := removeFirstStr tid c.task_ids })).map Column.id).Nodup := by
    rw [ids_map_of_id_preserved
      (fun c => { c with task_ids := removeFirstStr tid c.task_ids }) (fun c => rfl)]
    exact hids
  show Inv ⟨(b.columns.map (fun c => { c with task_ids := removeFirstStr tid c.task_ids })).map
    (fun c => if c.id = cid then { c with task_ids := c.task_ids ++ [tid] } else c), b.tasks⟩
  rw [inv_mk_iff]
  have hidsfinal : (((b.columns.map (fun c => { c with task_ids := removeFirstStr tid c.task_ids })).map (fun c => if c.id = cid then { c with task_ids := c.task_ids ++ [tid] } else c)).map Column.id).Nodup := by
    rw [ids_map_of_id_preserved
      (fun c => if c.id = cid then { c with task_ids := c.task_ids ++ [tid] } else c) ?hp]
    case hp =>
      intro c
      by_cases hc : c.id = cid
      · simp [hc]
      · simp [hc]
    exact hids1
  rcases joinTids_map_appendIf
      (b.columns.map (fun c => { c with task_ids := removeFirstStr tid c.task_ids })) cid tid
      hids1 with hperm | heq
  · refine ⟨?_, ?_, hkeys, hidsfinal⟩
    · intro x hx
      have hm0 := hperm.mem_iff.mp hx
      rcases List.mem_append.mp hm0 with hm | hm
      · exact hrefs x (hsub.mem hm)
      · rcases List.mem_singleton.mp hm with rfl
        exact hmem
    · refine hperm.symm.nodup ?_
      rw [List.nodup_append]
      refine ⟨hnd1, List.nodup_singleton tid, ?_⟩
      intro x hx hx2
      rcases List.mem_singleton.mp hx2 with rfl
      exact hnm hx
  · rw [heq]
    refine ⟨?_, hnd1, hkeys, ?_⟩
    · intro x hx
      exact hrefs x (hsub.mem hx)
    · exact hids1

theorem ids_of_extendFirst_ne (cols : List Column) (d : String) (tids : List String)
    (cid : String) (h : ∀ c ∈ cols, c.id ≠ cid) :
    ∀ c ∈ extendFirst cols d tids, c.id ≠ cid := by
  intro c hc
  have hmem : c.id ∈ (extendFirst cols d tids).map Column.id := List.mem_map.mpr ⟨c, hc, rfl⟩
  rw [extendFirst_ids] at hmem
  rcases List.mem_map.mp hmem with ⟨c2, hc2, he⟩
  rw [← he]
  exact h c2 hc2

theorem inv_deleteColumn (b : Board) (cid : String) (dest : Option String) (hInv : Inv b) :
    ∀ b2, deleteColumn b cid dest = .ok b2 → Inv b2 := by
  intro b2 h
  obtain ⟨hrefs, hjoin, hkeys, hids⟩ := hInv
  unfold deleteColumn at h
  cases hfc : findCol b.columns cid with
  | none => rw [hfc] at h; exact absurd h (by simp)
  | some trip =>
    obtain ⟨pre, col, post⟩ := trip
    rw [hfc] at h
    dsimp only at h
    rcases findCol_spec b.columns cid pre col post hfc with ⟨hdecomp, hpre, hcid⟩
    by_cases hguard : col.task_ids ≠ [] ∧ optTruthy dest = false
    · rw [if_pos hguard] at h; exact absurd h (by simp)
    · rw [if_neg hguard] at h
      simp only [Except.ok.injEq] at h
      subst h
      have hids0 : (b.columns.map Column.id).Nodup := hids
      have hjdec : joinTids b.columns = joinTids pre ++ (col.task_ids ++ joinTids post) := by
        rw [hdecomp, joinTids_append, joinTids_cons]
      have hidsdec : b.columns.map Column.id =
          pre.map Column.id ++ col.id :: post.map Column.id := by
        rw [hdecomp, List.map_append, List.map_cons]
      have hidsres : ((pre ++ post).map Column.id).Nodup := by
        rw [hidsdec] at hids0
        rw [List.map_append]
        rcases List.nodup_append.mp hids0 with ⟨hn1, hn2, hdisj⟩
        rw [List.nodup_append]
        refine ⟨hn1, (List.nodup_cons.mp hn2).2, ?_⟩
        intro a ha ha2
        exact hdisj ha (List.mem_cons.mpr (Or.inr ha2))
      have hsub0 : (joinTids (pre ++ post)).Sublist (joinTids b.columns) := by
        rw [joinTids_append, hjdec]
        exact List.Sublist.append_left (List.sublist_append_right _ _) _
      by_cases htr : optTruthy dest = true
      · rw [if_pos htr]
        set d := dest.getD "" with hd
        by_cases h1 : containsId pre d = true
        · have hext : extendFirst b.columns d col.task_ids =
              extendFirst pre d col.task_ids ++ (col :: post) := by
            rw [hdecomp]
            exact extendFirst_append_of_contains pre (col :: post) d col.task_ids h1
          rw [hext, removeFirstCol_decomp (extendFirst pre d col.task_ids) col post
            cid (ids_of_extendFirst_ne pre d col.task_ids cid hpre) hcid]
          have hjperm : (joinTids (extendFirst pre d col.task_ids ++ post)).Perm
              (joinTids b.columns) := by
            rw [joinTids_append, hjdec]
            have hp1 := extendFirst_join_of_contains pre d col.task_ids h1
            have hp2 := List.Perm.append_right (joinTids post) hp1
            refine hp2.trans ?_
            rw [List.append_assoc]
          have hidsok : ((extendFirst pre d col.task_ids ++ post).map Column.id).Nodup := by
            rw [List.map_append, extendFirst_ids, ← List.map_append]
            exact hidsres
          exact inv_of_columns_weaker b _ (fun x hx => hjperm.mem_iff.mp hx)
            (hjperm.symm.nodup hjoin) hidsok ⟨hrefs, hjoin, hkeys, hids⟩
        · have h1f : containsId pre d = false := by
            cases hcc : containsId pre d with
            | false => rfl
            | true => exact absurd hcc h1
          by_cases h2 : col.id = d
          · have hext : extendFirst b.columns d col.task_ids =
                pre ++ ({ col with task_ids := col.task_ids ++ col.task_ids } :: post) := by
              rw [hdecomp,
                extendFirst_append_of_not_contains pre (col :: post) d col.task_ids h1f,
                extendFirst]
              simp only [h2, if_true]
            rw [hext, removeFirstCol_decomp pre _ post cid hpre (by simpa using hcid)]
            exact inv_of_columns_weaker b _ (fun x hx => hsub0.mem hx)
              (hsub0.nodup hjoin) hidsres ⟨hrefs, hjoin, hkeys, hids⟩
          · have hext : extendFirst b.columns d col.task_ids =
                pre ++ (col :: extendFirst post d col.task_ids) := by
              rw [hdecomp,
                extendFirst_append_of_not_contains pre (col :: post) d col.task_ids h1f,
                extendFirst]
              simp only [h2, if_false]
            rw [hext, removeFirstCol_decomp pre col (extendFirst post d col.task_ids)
              cid hpre hcid]
            by_cases h3 : containsId post d = true
            · have hjperm : (joinTids (pre ++ extendFirst post d col.task_ids)).Perm
                  (joinTids b.columns) := by
                rw [joinTids_append, hjdec]
                have hp1 := extendFirst_join_of_contains post d col.task_ids h3
                refine (List.Perm.append_left (joinTids pre) hp1).trans ?_
                exact List.Perm.append_left (joinTids pre) List.perm_append_comm
              have hidsok : ((pre ++ extendFirst post d col.task_ids).map Column.id).Nodup := by
                rw [List.map_append, extendFirst_ids, ← List.map_append]
                exact hidsres
              exact inv_of_columns_weaker b _ (fun x hx => hjperm.mem_iff.mp hx)
                (hjperm.symm.nodup hjoin) hidsok ⟨hrefs, hjoin, hkeys, hids⟩
            · have h3f : containsId post d = false := by
                cases hcc : containsId post d with
                | false => rfl
                | true => exact absurd hcc h3
              rw [extendFirst_of_not_contains post d col.task_ids h3f]
              exact inv_of_columns_weaker b _ (fun x hx => hsub0.mem hx)
                (hsub0.nodup hjoin) hidsres ⟨hrefs, hjoin, hkeys, hids⟩
      · rw [if_neg htr]
        rw [hdecomp, removeFirstCol_decomp pre col post cid hpre hcid]
        exact inv_of_columns_weaker b _ (fun x hx => hsub0.mem hx)
          (hsub0.nodup hjoin) hidsres ⟨hrefs, hjoin, hkeys, hids⟩
theorem inv_applyOp (b : Board) (op : Op) (hInv : Inv b) (hok : OpOk b op) :
    Inv (applyOp b op) := by
  unfold applyOp
  have hval : validate b = .ok (repairOrphans b) := validate_ok_of b hInv.2.2.2 hInv.1
  rw [hval]
  have hInv0 : Inv (repairOrphans b) := inv_repairOrphans b hInv
  cases op with
  | addTask cid t tid =>
    dsimp only [rawApply, Option.getD]
    refine inv_addTask _ cid tid t hInv0 ?_
    rw [repairOrphans_tasks]
    exact (not_mem_keysOf_iff b.tasks tid).mpr hok
  | editTask tid u =>
    dsimp only [rawApply]
    cases he : editTask (repairOrphans b) tid u with
    | none => simp only [he, Option.getD_none]; exact hInv
    | some b2 =>
      simp only [he, Option.getD_some]
      exact inv_editTask _ tid u hInv0 b2 he
  | deleteTask tid =>
    dsimp only [rawApply, Option.getD]
    exact inv_deleteTask _ tid hInv0
  | addColumn name cid =>
    dsimp only [rawApply, Option.getD]
    refine inv_addColumn _ name cid hInv0 ?_
    intro c hc
    have hmem : c.id ∈ (repairOrphans b).columns.map Column.id :=
      List.mem_map.mpr ⟨c, hc, rfl⟩
    rw [repairOrphans_ids] at hmem
    rcases List.mem_map.mp hmem with ⟨c2, hc2, he⟩
    rw [← he]
    exact hok c2 hc2
  | renameColumn cid nn =>
    dsimp only [rawApply, Option.getD]
    exact inv_renameColumn _ cid nn hInv0
  | deleteColumn cid dst =>
    dsimp only [rawApply]
    cases hdc : deleteColumn (repairOrphans b) cid dst with
    | error e => simp only [hdc, Except.toOption, Option.getD_none]; exact hInv
    | ok b2 =>
      simp only [hdc, Except.toOption, Option.getD_some]
      exact inv_deleteColumn _ cid dst hInv0 b2 hdc
  | moveTask tid cid =>
    dsimp only [rawApply, Option.getD]
    refine inv_moveTask _ tid cid hInv0 ?_
    rw [repairOrphans_tasks]
    exact hok

theorem inv_applyOps (b : Board) (ops : List Op) (hInv : Inv b) (hseq : SeqOk b ops) :
    Inv (applyOps b ops) := by
  induction ops generalizing b with
  | nil => exact hInv
  | cons op rest ih =>
    obtain ⟨hok, hrest⟩ := hseq
    exact ih (applyOp b op) (inv_applyOp b op hInv hok) hrest

/-! Lemmas about the reorder reconciliation loop. -/

theorem headD_eq_getElem_zero (ns : List (List String)) : ns.headD [] = (ns[0]?).getD [] := by
  cases ns <;> simp

theorem tail_getElem (ns : List (List String)) (j : Nat) : ns.tail[j]? = ns[j + 1]? := by
  cases ns <;> simp

theorem reconcileGo_fst_getElem (cols : List Column) (ns : List (List String)) (j : Nat) :
    (reconcileGo cols ns).1[j]? =
      (cols[j]?).map (fun c => { c with task_ids := (ns[j]?.getD []).map decodeItemId }) := by
  induction cols generalizing ns j with
  | nil => simp [reconcileGo]
  | cons c rest ih =>
    rw [reconcileGo]
    by_cases hne : (ns.headD []).map decodeItemId = c.task_ids
    · rw [if_pos hne]
      cases j with
      | zero =>
        simp only [List.getElem?_cons_zero, Option.map_some]
        rw [← headD_eq_getElem_zero, hne]
        rfl
      | succ j =>
        simp only [List.getElem?_cons_succ]
        rw [ih, tail_getElem]
    · rw [if_neg hne]
      cases j with
      | zero =>
        simp only [List.getElem?_cons_zero, Option.map_some]
        rw [← headD_eq_getElem_zero]
        rfl
      | succ j =>
        simp only [List.getElem?_cons_succ]
        rw [ih, tail_getElem]

theorem reconcileGo_changed_iff (cols : List Column) (ns : List (List String)) :
    (reconcileGo cols ns).2 = true ↔
      ∃ j : Nat, ∃ c2 : Column, cols[j]? = some c2 ∧
        (ns[j]?.getD []).map decodeItemId ≠ c2.task_ids := by
  induction cols generalizing ns with
  | nil => simp [reconcileGo]
  | cons c rest ih =>
    rw [reconcileGo]
    by_cases hne : (ns.headD []).map decodeItemId = c.task_ids
    · rw [if_pos hne]
      rw [show (((c :: (reconcileGo rest ns.tail).1), (reconcileGo rest ns.tail).2) :
        List Column × Bool).2 = (reconcileGo rest ns.tail).2 from rfl]
      rw [ih ns.tail]
      constructor
      · rintro ⟨j, c2, hj, hdiff⟩
        refine ⟨j + 1, c2, by rw [List.getElem?_cons_succ]; exact hj, ?_⟩
        rw [← tail_getElem]
        exact hdiff
      · rintro ⟨j, c2, hj, hdiff⟩
        cases j with
        | zero =>
          simp only [List.getElem?_cons_zero, Option.some.injEq] at hj
          subst hj
          rw [← headD_eq_getElem_zero] at hdiff
          exact absurd hne hdiff
        | succ j =>
          simp only [List.getElem?_cons_succ] at hj
          exact ⟨j, c2, hj, by rw [tail_getElem]; exact hdiff⟩
    · rw [if_neg hne]
      constructor
      · intro _
        refine ⟨0, c, by simp, ?_⟩
        rw [← headD_eq_getElem_zero]
        exact hne
      · intro _; rfl

theorem reconcileGo_fst_of_not_changed (cols : List Column) (ns : List (List String))
    (h : (reconcileGo cols ns).2 = false) : (reconcileGo cols ns).1 = cols := by
  induction cols generalizing ns with
  | nil => rfl
  | cons c rest ih =>
    rw [reconcileGo] at h ⊢
    by_cases hne : (ns.headD []).map decodeItemId = c.task_ids
    · rw [if_pos hne] at h ⊢
      rw [show (((c :: (reconcileGo rest ns.tail).1), (reconcileGo rest ns.tail).2) :
        List Column × Bool).2 = (reconcileGo rest ns.tail).2 from rfl] at h
      rw [show (((c :: (reconcileGo rest ns.tail).1), (reconcileGo rest ns.tail).2) :
        List Column × Bool).1 = c :: (reconcileGo rest ns.tail).1 from rfl]
      rw [ih ns.tail h]
    · rw [if_neg hne] at h
      exact absurd h (by simp)

theorem reconcileGo_join (cols : List Column) (ns : List (List String))
    (hlen : ns.length = cols.length) :
    joinTids (reconcileGo cols ns).1 = (ns.map (fun l => l.map decodeItemId)).flatten := by
  induction cols generalizing ns with
  | nil =>
    cases ns with
    | nil => rfl
    | cons n ns2 => simp at hlen
  | cons c rest ih =>
    cases ns with
    | nil => simp at hlen
    | cons n ns2 =>
      rw [reconcileGo]
      have hlen2 : ns2.length = rest.length := by simpa using hlen
      by_cases hne : ((n :: ns2).headD []).map decodeItemId = c.task_ids
      · rw [if_pos hne]
        rw [show (((c :: (reconcileGo rest (n :: ns2).tail).1),
          (reconcileGo rest (n :: ns2).tail).2) : List Column × Bool).1 =
          c :: (reconcileGo rest (n :: ns2).tail).1 from rfl]
        rw [joinTids_cons]
        rw [show (n :: ns2).tail = ns2 from rfl]
        rw [ih ns2 hlen2]
        simp only [List.headD_cons] at hne
        rw [List.map_cons, List.flatten_cons, ← hne]
      · rw [if_neg hne]
        rw [show ((({ c with task_ids := ((n :: ns2).headD []).map decodeItemId } ::
          (reconcileGo rest (n :: ns2).tail).1), true) : List Column × Bool).1 =
          { c with task_ids := ((n :: ns2).headD []).map decodeItemId } ::
            (reconcileGo rest (n :: ns2).tail).1 from rfl]
        rw [joinTids_cons]
        rw [show (n :: ns2).tail = ns2 from rfl]
        rw [ih ns2 hlen2]
        simp only [List.headD_cons]
        rw [List.map_cons, List.flatten_cons]
/-! Lemmas about the token encoding and decoding. -/

theorem takeWhile_append_of_all (p : Char → Bool) (l1 : List Char) (c : Char)
    (l2 : List Char) (h : ∀ x ∈ l1, p x = true) (hc : p c = false) :
    (l1 ++ c :: l2).takeWhile p = l1 := by
  induction l1 with
  | nil => simp [List.takeWhile_cons, hc]
  | cons a as ih =>
    rw [List.cons_append, List.takeWhile_cons, h a (by simp),
      ih (fun x hx => h x (by simp [hx]))]
    simp

theorem afterLastChar_spec (label tid : List Char) (h : hiddenChar ∉ tid) :
    afterLastChar hiddenChar (label ++ hiddenChar :: tid) = tid := by
  unfold afterLastChar
  rw [List.reverse_append, List.reverse_cons, List.append_assoc, List.singleton_append]
  rw [takeWhile_append_of_all _ tid.reverse hiddenChar label.reverse ?hall ?hc]
  · exact List.reverse_reverse tid
  case hall =>
    intro x hx
    rw [List.mem_reverse] at hx
    simp only [ne_eq, decide_eq_true_eq]
    intro he
    exact h (he ▸ hx)
  case hc => simp

theorem string_data_append (s t : String) : (s ++ t).data = s.data ++ t.data := rfl

theorem decode_encodeItem (label tid : String) (h : hiddenChar ∉ tid.data) :
    decodeItemId (encodeItem label tid) = tid := by
  unfold decodeItemId encodeItem
  have hdata : (label ++ ⟨[hiddenChar]⟩ ++ tid).data = label.data ++ hiddenChar :: tid.data := by
    rw [string_data_append, string_data_append]
    simp
  rw [hdata]
  rw [if_pos (by simp)]
  rw [afterLastChar_spec label.data tid.data h]

theorem containsDC_of_split (idl rest : List Char) (h : ':' ∉ idl) :
    containsDC (idl ++ ':' :: ':' :: rest) = true := by
  induction idl with
  | nil => simp [containsDC]
  | cons a as ih =>
    have has : ':' ∉ as := fun hm => h (List.mem_cons.mpr (Or.inr hm))
    cases as with
    | nil =>
      show containsDC (a :: ':' :: ':' :: rest) = true
      rw [containsDC]
      have h2 : containsDC (':' :: ':' :: rest) = true := by
        rw [containsDC]; simp
      rw [h2]
      simp
    | cons b bs =>
      show containsDC (a :: b :: (bs ++ ':' :: ':' :: rest)) = true
      rw [containsDC]
      have h2 := ih has
      rw [List.cons_append] at h2
      rw [h2]
      simp

theorem beforeDC_of_split (idl rest : List Char) (h : ':' ∉ idl) :
    beforeDC (idl ++ ':' :: ':' :: rest) = idl := by
  induction idl with
  | nil =>
    show beforeDC (':' :: ':' :: rest) = []
    simp [beforeDC]
  | cons a as ih =>
    have ha : a ≠ ':' := fun he => h (List.mem_cons.mpr (Or.inl he.symm))
    have has : ':' ∉ as := fun hm => h (List.mem_cons.mpr (Or.inr hm))
    cases as with
    | nil =>
      show beforeDC (a :: ':' :: ':' :: rest) = [a]
      rw [beforeDC, if_neg (by simp [ha])]
      have h2 : beforeDC (':' :: ':' :: rest) = [] := by simp [beforeDC]
      rw [h2]
    | cons b bs =>
      show beforeDC (a :: b :: (bs ++ ':' :: ':' :: rest)) = a :: b :: bs
      rw [beforeDC, if_neg (by simp [ha])]
      have h2 := ih has
      rw [List.cons_append] at h2
      rw [h2]

theorem decode_legacy (label tid : String) (hh1 : hiddenChar ∉ tid.data)
    (hh2 : hiddenChar ∉ label.data) (hc : ':' ∉ tid.data) :
    decodeItemId (tid ++ "::" ++ label) = tid := by
  unfold decodeItemId
  have hdata : (tid ++ "::" ++ label).data = tid.data ++ ':' :: ':' :: label.data := by
    rw [string_data_append, string_data_append]
    simp [List.append_assoc]
  rw [hdata]
  have hnohid : (tid.data ++ ':' :: ':' :: label.data).contains hiddenChar = false := by
    have hnm : hiddenChar ∉ tid.data ++ ':' :: ':' :: label.data := by
      intro hx
      rcases List.mem_append.mp hx with hm | hm
      · exact hh1 hm
      · rcases List.mem_cons.mp hm with hm2 | hm2
        · exact absurd hm2 (by decide)
        · rcases List.mem_cons.mp hm2 with hm3 | hm3
          · exact absurd hm3 (by decide)
          · exact hh2 hm3
    simpa using hnm
  rw [if_neg (by rw [hnohid]; exact Bool.false_ne_true)]
  rw [if_pos (by rw [containsDC_of_split tid.data label.data hc])]
  rw [beforeDC_of_split tid.data label.data hc]

/-! Lemmas about the payload construction. -/

theorem buildItems_of_refs (b : Board) (spec : FilterSpec) (tids : List String)
    (h : ∀ tid ∈ tids, tid ∈ keysOf b.tasks) :
    buildItems b spec tids = tids.map (fun tid =>
      encodeItem
        (match lookupKey b.tasks tid with
          | some t => if passFilter spec t then itemLabelMultiline t else obscuredLabel t
          | none => "") tid) := by
  induction tids with
  | nil => rfl
  | cons tid rest ih =>
    rcases lookupKey_eq_some_of_mem b.tasks tid (h tid (by simp)) with ⟨t, ht⟩
    rw [buildItems, ht, List.map_cons, ht]
    rw [ih (fun x hx => h x (by simp [hx]))]

theorem map_decode_buildItems (b : Board) (spec : FilterSpec) (tids : List String)
    (h : ∀ tid ∈ tids, tid ∈ keysOf b.tasks)
    (hh : ∀ tid ∈ tids, hiddenChar ∉ tid.data) :
    (buildItems b spec tids).map decodeItemId = tids := by
  induction tids with
  | nil => rfl
  | cons tid rest ih =>
    rcases lookupKey_eq_some_of_mem b.tasks tid (h tid (by simp)) with ⟨t, ht⟩
    rw [buildItems, ht, List.map_cons]
    rw [decode_encodeItem _ tid (hh tid (by simp))]
    rw [ih (fun x hx => h x (by simp [hx])) (fun x hx => hh x (by simp [hx]))]

/-! Lemmas about dates and the export/import round trip. -/

theorem digitVal_digitChar (k : Nat) (h : k < 10) : digitVal (digitChar k) = some k := by
  interval_cases k <;> rfl

theorem daysInMonth_le (y m : Nat) : daysInMonth y m ≤ 31 := by
  unfold daysInMonth
  split
  · split <;> omega
  · split <;> omega

theorem fromIso_toIso (dt : IsoDate) (h : dt.wf) : fromIso (toIso dt) = some dt := by
  obtain ⟨y, m, d⟩ := dt
  obtain ⟨h1, h2, h3, h4, h5, h6⟩ := h
  dsimp only at h1 h2 h3 h4 h5 h6
  show fromIso ⟨[digitChar (y / 1000 % 10), digitChar (y / 100 % 10),
    digitChar (y / 10 % 10), digitChar (y % 10), '-',
    digitChar (m / 10 % 10), digitChar (m % 10), '-',
    digitChar (d / 10 % 10), digitChar (d % 10)]⟩ = some ⟨y, m, d⟩
  unfold fromIso
  rw [show (⟨[digitChar (y / 1000 % 10), digitChar (y / 100 % 10),
    digitChar (y / 10 % 10), digitChar (y % 10), '-',
    digitChar (m / 10 % 10), digitChar (m % 10), '-',
    digitChar (d / 10 % 10), digitChar (d % 10)]⟩ : String).data =
    [digitChar (y / 1000 % 10), digitChar (y / 100 % 10),
    digitChar (y / 10 % 10), digitChar (y % 10), '-',
    digitChar (m / 10 % 10), digitChar (m % 10), '-',
    digitChar (d / 10 % 10), digitChar (d % 10)] from rfl]
  dsimp only
  rw [if_pos ⟨rfl, rfl⟩]
  rw [digitVal_digitChar (y / 1000 % 10) (Nat.mod_lt _ (by omega)),
    digitVal_digitChar (y / 100 % 10) (Nat.mod_lt _ (by omega)),
    digitVal_digitChar (y / 10 % 10) (Nat.mod_lt _ (by omega)),
    digitVal_digitChar (y % 10) (Nat.mod_lt _ (by omega)),
    digitVal_digitChar (m / 10 % 10) (Nat.mod_lt _ (by omega)),
    digitVal_digitChar (m % 10) (Nat.mod_lt _ (by omega)),
    digitVal_digitChar (d / 10 % 10) (Nat.mod_lt _ (by omega)),
    digitVal_digitChar (d % 10) (Nat.mod_lt _ (by omega))]
  have hyy : ((y / 1000 % 10 * 10 + y / 100 % 10) * 10 + y / 10 % 10) * 10 + y % 10 = y := by
    omega
  have hmm : m / 10 % 10 * 10 + m % 10 = m := by omega
  have hd31 : d ≤ 31 := le_trans h6 (daysInMonth_le y m)
  have hdd : d / 10 % 10 * 10 + d % 10 = d := by omega
  dsimp only
  rw [hyy, hmm, hdd]
  rw [if_pos ⟨h1, h3, h4, h5, h6⟩]

theorem toIso_ne_empty (dt : IsoDate) : toIso dt ≠ "" := by
  intro hcon
  have hd := congrArg String.data hcon
  simp [toIso] at hd

theorem parseTask_dumpTask (t : Task) (ht : t.title ≠ "")
    (hd : ∀ dt, t.due = some dt → dt.wf) : parseTask (dumpTask t) = some t := by
  obtain ⟨title, desc, prio, due, tags, done⟩ := t
  unfold dumpTask parseTask
  dsimp only at ht hd ⊢
  rw [if_neg ht]
  cases due with
  | none => rfl
  | some dt =>
    have hw := hd dt rfl
    unfold parseDue
    rw [if_neg (toIso_ne_empty dt), fromIso_toIso dt hw]
    rfl

theorem parseTasks_map_dump (ts : List (String × Task))
    (h : ∀ p ∈ ts, p.2.title ≠ "" ∧ ∀ dt, p.2.due = some dt → dt.wf) :
    parseTasks (ts.map (fun p => (p.1, dumpTask p.2))) = some ts := by
  induction ts with
  | nil => rfl
  | cons p rest ih =>
    rw [List.map_cons, parseTasks]
    rw [parseTask_dumpTask p.2 (h p (by simp)).1 (h p (by simp)).2]
    rw [ih (fun x hx => h x (by simp [hx]))]

theorem repairOrphans_eq_self_cases (b : Board)
    (h : orphansOf b = [] ∨ b.columns = []) : repairOrphans b = b := by
  rcases h with h | h
  · exact repairOrphans_of_no_orphans b h
  · obtain ⟨cols, ts⟩ := b
    simp only at h
    subst h
    rfl

theorem importBoard_exportBoard (b : Board) (h1 : NodupIds b) (h2 : RefsValid b)
    (h3 : orphansOf b = [] ∨ b.columns = [])
    (h4 : ∀ p ∈ b.tasks, p.2.title ≠ "" ∧ ∀ dt, p.2.due = some dt → dt.wf) :
    importBoard (exportBoard b) = some b := by
  unfold importBoard exportBoard
  dsimp only
  rw [parseTasks_map_dump b.tasks h4]
  show (validate ⟨b.columns, b.tasks⟩).toOption = some b
  have hb : (⟨b.columns, b.tasks⟩ : Board) = b := rfl
  rw [hb, validate_ok_of b h1 h2, repairOrphans_eq_self_cases b h3]
  rfl

theorem setKey_of_not_mem {α : Type} (l : List (String × α)) (k : String) (v : α)
    (h : k ∉ keysOf l) : setKey l k v = l ++ [(k, v)] := by
  induction l with
  | nil => rfl
  | cons p rest ih =>
    rw [keysOf_cons] at h
    have hk : p.1 ≠ k := fun he => h (List.mem_cons.mpr (Or.inl he.symm))
    rw [setKey]
    simp only [hk, if_false]
    rw [ih (fun hm => h (List.mem_cons.mpr (Or.inr hm))), List.cons_append]

theorem lookupKey_append_fresh {α : Type} (l : List (String × α)) (k : String) (v : α)
    (h : k ∉ keysOf l) : lookupKey (l ++ [(k, v)]) k = some v := by
  induction l with
  | nil => simp [lookupKey]
  | cons p rest ih =>
    rw [keysOf_cons] at h
    have hk : p.1 ≠ k := fun he => h (List.mem_cons.mpr (Or.inl he.symm))
    rw [List.cons_append, lookupKey]
    simp only [hk, if_false]
    exact ih (fun hm => h (List.mem_cons.mpr (Or.inr hm)))

theorem joinTids_repairOrphans_perm (c0 : Column) (rest : List Column)
    (tasks : List (String × Task)) :
    (joinTids (repairOrphans ⟨c0 :: rest, tasks⟩).columns).Perm
      (joinTids (c0 :: rest) ++ orphansOf ⟨c0 :: rest, tasks⟩) := by
  rw [repairOrphans_cons]
  have hsp : (sortStrings (orphansOf (⟨c0 :: rest, tasks⟩ : Board))).Perm
      (orphansOf (⟨c0 :: rest, tasks⟩ : Board)) := sortStrings_perm _
  rw [joinTids_cons, joinTids_cons, List.append_assoc, List.append_assoc]
  refine List.Perm.append_left c0.task_ids ?_
  exact (List.Perm.append_right _ hsp).trans List.perm_append_comm

theorem repairOrphans_complete (b : Board) (h : RefsValid b) :
    RefsValid (repairOrphans b) ∧ ((repairOrphans b).columns ≠ [] →
      ∀ k ∈ keysOf (repairOrphans b).tasks, k ∈ allAssigned (repairOrphans b)) := by
  obtain ⟨cols, tasks⟩ := b
  cases cols with
  | nil =>
    refine ⟨h, ?_⟩
    intro hne
    exact absurd rfl hne
  | cons c0 rest =>
    have hperm := joinTids_repairOrphans_perm c0 rest tasks
    constructor
    · intro x hx
      rw [repairOrphans_tasks]
      have hx2 := hperm.mem_iff.mp hx
      rcases List.mem_append.mp hx2 with hm | hm
      · exact h x hm
      · exact mem_keysOf_of_mem_orphansOf _ x hm
    · intro _ k hk
      rw [repairOrphans_tasks] at hk
      show k ∈ joinTids (repairOrphans ⟨c0 :: rest, tasks⟩).columns
      rw [hperm.mem_iff]
      by_cases ha : k ∈ joinTids (c0 :: rest)
      · exact List.mem_append.mpr (Or.inl ha)
      · refine List.mem_append.mpr (Or.inr ?_)
        unfold orphansOf
        rw [List.mem_filter]
        refine ⟨hk, ?_⟩
        simpa using ha

/-! Claim theorems. -/

/-- C3: constructing a Board from raw data that passes the duplicate-id and
dangling-reference checks succeeds, and appends exactly the orphan task ids
(the keys of `tasks` referenced by no column) to the first column's task_ids
in ascending code-point sort order; with zero columns the repair is a no-op
and construction still succeeds. -/
theorem C3_orphan_repair (b : Board) (h1 : NodupIds b) (h2 : RefsValid b) :
    (b.columns = [] → validate b = .ok b) ∧
    (∀ c0 rest, b.columns = c0 :: rest →
      validate b = .ok ⟨{ c0 with task_ids := c0.task_ids ++ sortStrings (orphansOf b) } :: rest,
        b.tasks⟩ ∧
      (sortStrings (orphansOf b)).Perm (orphansOf b) ∧
      List.Pairwise (fun x y => strLe x y = true) (sortStrings (orphansOf b)) ∧
      (∀ x, x ∈ orphansOf b ↔ (x ∈ keysOf b.tasks ∧ x ∉ allAssigned b))) := by
  constructor
  · intro hnil
    rw [validate_ok_of b h1 h2, repairOrphans_eq_self_cases b (Or.inr hnil)]
  · intro c0 rest hcols
    have hb : b = ⟨c0 :: rest, b.tasks⟩ := by
      rw [← hcols]
    refine ⟨?_, sortStrings_perm _, sortStrings_sorted _, ?_⟩
    · rw [validate_ok_of b h1 h2]
      rw [hb, repairOrphans_cons, ← hb]
    · intro x
      unfold orphansOf
      rw [List.mem_filter]
      simp

/-- C4 counterexample: under the legacy double-colon convention, a token of
the form label ++ "::" ++ id does not decode to the id — decoding returns
the part before the first double colon, here the label. -/
theorem C4_counterexample :
    decodeItemId ("L" ++ "::" ++ "t1") ≠ "t1" ∧ decodeItemId ("L" ++ "::" ++ "t1") = "L" := by
  constructor
  · decide
  · decide

/-- C4 amended: decoding strips the hidden-identifier suffix under both
conventions, but the two conventions place the id on opposite sides of the
delimiter: under the invisible-separator convention the token is
label ++ separator ++ id and decodes to the id (provided the id does not
contain the separator); under the legacy double-colon convention the token is
id ++ "::" ++ label and decodes to the id (provided the token contains no
invisible separator and the id contains no colon). -/
theorem C4_amended (label tid : String) :
    (hiddenChar ∉ tid.data → decodeItemId (encodeItem label tid) = tid) ∧
    (hiddenChar ∉ tid.data → hiddenChar ∉ label.data → ':' ∉ tid.data →
      decodeItemId (tid ++ "::" ++ label) = tid) :=
  ⟨fun h => decode_encodeItem label tid h,
   fun h1 h2 h3 => decode_legacy label tid h1 h2 h3⟩

/-- C4 amended, witnessed at the concrete label "L" and task id "t1": the
unicode-separator token decodes to "t1", and so does the legacy token
"t1" ++ "::" ++ "L". -/
theorem C4_amended_witness :
    (hiddenChar ∉ "t1".data ∧ hiddenChar ∉ "L".data ∧ ':' ∉ "t1".data) ∧
    decodeItemId (encodeItem "L" "t1") = "t1" ∧
    decodeItemId ("t1" ++ "::" ++ "L") = "t1" :=
  ⟨by decide, (C4_amended "L" "t1").1 (by decide),
   (C4_amended "L" "t1").2 (by decide) (by decide) (by decide)⟩

/-- C8: constructing a Board from untrusted data succeeds exactly when no two
columns share an id and every referenced task id exists (so orphan tasks
never cause a failure); a duplicate-column-id error implies the column ids
really are duplicated, a dangling-task error identifies a referenced id
absent from `tasks`, and a successful construction satisfies the Board
invariants including orphan absorption. -/
theorem C8_validation (b : Board) :
    ((validate b).isOk = true ↔ (NodupIds b ∧ RefsValid b)) ∧
    (∀ cid, validate b = .error (.duplicateColumnId cid) → ¬ NodupIds b) ∧
    (∀ tid cname, validate b = .error (.danglingTask tid cname) →
      ∃ c ∈ b.columns, c.name = cname ∧ tid ∈ c.task_ids ∧ tid ∉ keysOf b.tasks) ∧
    (∀ b2, validate b = .ok b2 → NodupIds b2 ∧ RefsValid b2 ∧
      (b2.columns ≠ [] → ∀ k ∈ keysOf b2.tasks, k ∈ allAssigned b2)) := by
  refine ⟨validate_isOk_iff b, validate_dup_spec b, validate_dangling_spec b, ?_⟩
  intro b2 hok
  have hisok : (validate b).isOk = true := by rw [hok]; rfl
  rcases (validate_isOk_iff b).mp hisok with ⟨h1, h2⟩
  have hb2 : b2 = repairOrphans b := by
    rw [validate_ok_of b h1 h2] at hok
    simpa using hok.symm
  subst hb2
  rcases repairOrphans_complete b h2 with ⟨hr1, hr2⟩
  refine ⟨?_, hr1, hr2⟩
  unfold NodupIds
  rw [repairOrphans_ids]
  exact h1

/-- C3 witnessed at the claim's concrete input: constructing from one empty
column "a" and a single unreferenced task "t1" yields task_ids == ["t1"]. -/
theorem C3_orphan_repair_witness :
    NodupIds (⟨[⟨"a", "A", []⟩], [("t1", { title := "T" })]⟩ : Board) ∧
    RefsValid (⟨[⟨"a", "A", []⟩], [("t1", { title := "T" })]⟩ : Board) ∧
    validate ⟨[⟨"a", "A", []⟩], [("t1", { title := "T" })]⟩ =
      .ok ⟨[⟨"a", "A", ["t1"]⟩], [("t1", { title := "T" })]⟩ :=
  ⟨by decide, by decide,
   ((C3_orphan_repair ⟨[⟨"a", "A", []⟩], [("t1", { title := "T" })]⟩
     (by decide) (by decide)).2 ⟨"a", "A", []⟩ [] rfl).1⟩

/-- C5: when the drag-and-drop result has one token list per column and the
decoded tokens form a redistribution of exactly the board's assigned task
ids, the reconciler replaces every column's task_ids with its decoded list
(positionally), and the multiset of assigned ids is preserved — no task id
is lost or duplicated. -/
theorem C5_reorder (b : Board) (ns : List (List String))
    (hlen : ns.length = b.columns.length)
    (hperm : ((ns.map (fun l => l.map decodeItemId)).flatten).Perm (allAssigned b)) :
    (∀ j : Nat, (reconcile b ns).1.columns[j]? =
      (b.columns[j]?).map (fun c => { c with task_ids := (ns[j]?.getD []).map decodeItemId })) ∧
    (allAssigned (reconcile b ns).1).Perm (allAssigned b) := by
  constructor
  · intro j
    exact reconcileGo_fst_getElem b.columns ns j
  · show (joinTids (reconcileGo b.columns ns).1).Perm (allAssigned b)
    rw [reconcileGo_join b.columns ns hlen]
    exact hperm

/-- C5 witnessed at the claim's example: "todo" = ["t1","t2"], "done" = [],
a result reporting "todo" = ["t2"], "done" = ["t1"] yields exactly that
redistribution with nothing lost or duplicated. -/
theorem C5_reorder_witness :
    ([["t2"], ["t1"]].length =
        (⟨[⟨"todo", "Todo", ["t1", "t2"]⟩, ⟨"done", "Done", []⟩],
          [("t1", { title := "T" }), ("t2", { title := "T" })]⟩ : Board).columns.length ∧
      (([["t2"], ["t1"]].map (fun l => l.map decodeItemId)).flatten).Perm
        (allAssigned ⟨[⟨"todo", "Todo", ["t1", "t2"]⟩, ⟨"done", "Done", []⟩],
          [("t1", { title := "T" }), ("t2", { title := "T" })]⟩)) ∧
    ((reconcile ⟨[⟨"todo", "Todo", ["t1", "t2"]⟩, ⟨"done", "Done", []⟩],
        [("t1", { title := "T" }), ("t2", { title := "T" })]⟩
        [["t2"], ["t1"]]).1.columns.map Column.task_ids = [["t2"], ["t1"]]) ∧
    ((∀ j : Nat, (reconcile ⟨[⟨"todo", "Todo", ["t1", "t2"]⟩, ⟨"done", "Done", []⟩],
        [("t1", { title := "T" }), ("t2", { title := "T" })]⟩
        [["t2"], ["t1"]]).1.columns[j]? =
      ((⟨[⟨"todo", "Todo", ["t1", "t2"]⟩, ⟨"done", "Done", []⟩],
        [("t1", { title := "T" }), ("t2", { title := "T" })]⟩ : Board).columns[j]?).map
        (fun c => { c with task_ids := ([["t2"], ["t1"]][j]?.getD []).map decodeItemId })) ∧
    (allAssigned (reconcile ⟨[⟨"todo", "Todo", ["t1", "t2"]⟩, ⟨"done", "Done", []⟩],
        [("t1", { title := "T" }), ("t2", { title := "T" })]⟩ [["t2"], ["t1"]]).1).Perm
      (allAssigned ⟨[⟨"todo", "Todo", ["t1", "t2"]⟩, ⟨"done", "Done", []⟩],
        [("t1", { title := "T" }), ("t2", { title := "T" })]⟩)) :=
  ⟨⟨by decide, by decide⟩, by decide,
   C5_reorder ⟨[⟨"todo", "Todo", ["t1", "t2"]⟩, ⟨"done", "Done", []⟩],
     [("t1", { title := "T" }), ("t2", { title := "T" })]⟩
     [["t2"], ["t1"]] (by decide) (by decide)⟩

/-- C6: the reconciler's changed flag is false exactly when every column's
decoded list equals its stored task_ids, and in that case the board is left
as it was and no save occurs; when it is true, the whole updated board is
persisted exactly once, batched across all changed columns. -/
theorem C6_idempotence (b : Board) (ns : List (List String)) :
    ((reorderStep b ns).2.1 = false ↔
      (∀ j : Nat, ∀ c : Column, b.columns[j]? = some c →
        (ns[j]?.getD []).map decodeItemId = c.task_ids)) ∧
    ((reorderStep b ns).2.1 = false →
      (reorderStep b ns).1 = b ∧ (reorderStep b ns).2.2 = []) ∧
    ((reorderStep b ns).2.1 = true →
      (reorderStep b ns).2.2 = [(reorderStep b ns).1] ∧
      (reorderStep b ns).2.2.length = 1) := by
  have hch : (reorderStep b ns).2.1 = (reconcileGo b.columns ns).2 := rfl
  refine ⟨?_, ?_, ?_⟩
  · rw [hch]
    constructor
    · intro hfalse j c hj
      by_contra hdiff
      have hcon : (reconcileGo b.columns ns).2 = true :=
        (reconcileGo_changed_iff b.columns ns).mpr ⟨j, c, hj, hdiff⟩
      rw [hfalse] at hcon
      exact absurd hcon (by simp)
    · intro hall
      cases hc : (reconcileGo b.columns ns).2 with
      | false => rfl
      | true =>
        rcases (reconcileGo_changed_iff b.columns ns).mp hc with ⟨j, c, hj, hdiff⟩
        exact absurd (hall j c hj) hdiff
  · intro hfalse
    rw [hch] at hfalse
    constructor
    · show (⟨(reconcileGo b.columns ns).1, b.tasks⟩ : Board) = b
      rw [reconcileGo_fst_of_not_changed b.columns ns hfalse]
    · show (if (reconcileGo b.columns ns).2 then
        [(⟨(reconcileGo b.columns ns).1, b.tasks⟩ : Board)] else []) = []
      rw [hfalse]
      simp
  · intro htrue
    rw [hch] at htrue
    constructor
    · show (if (reconcileGo b.columns ns).2 then
        [(⟨(reconcileGo b.columns ns).1, b.tasks⟩ : Board)] else []) =
        [(⟨(reconcileGo b.columns ns).1, b.tasks⟩ : Board)]
      rw [htrue]
      simp
    · show (if (reconcileGo b.columns ns).2 then
        [(⟨(reconcileGo b.columns ns).1, b.tasks⟩ : Board)] else []).length = 1
      rw [htrue]
      simp

/-- C7: for every board whose column references all resolve (as construction
guarantees) and whose task ids do not contain the reserved invisible
separator, and for every filter spec, the payload sent to the drag-and-drop
widget carries, per column, one token per task id in order; the tokens decode
back to exactly the column's task_ids, and a task failing the filter is still
present, merely rendered with the obscured label. Filtering never removes an
id from the payload. -/
theorem C7_filter_payload (b : Board) (spec : FilterSpec)
    (hrefs : RefsValid b)
    (hhid : ∀ tid ∈ allAssigned b, hiddenChar ∉ tid.data) :
    ∀ j : Nat, ∀ c : Column, b.columns[j]? = some c →
      (payload b spec)[j]? = some (c.name, buildItems b spec c.task_ids) ∧
      (buildItems b spec c.task_ids).map decodeItemId = c.task_ids ∧
      buildItems b spec c.task_ids = c.task_ids.map (fun tid =>
        encodeItem
          (match lookupKey b.tasks tid with
            | some t => if passFilter spec t then itemLabelMultiline t else obscuredLabel t
            | none => "") tid) := by
  intro j c hj
  have hcmem : c ∈ b.columns := by
    have := List.getElem?_eq_some_iff.mp hj
    rcases this with ⟨hlt, hget⟩
    rw [← hget]
    exact List.getElem_mem hlt
  have hrc : ∀ tid ∈ c.task_ids, tid ∈ keysOf b.tasks :=
    fun tid htid => perColumnRefs_of_refsValid b hrefs c hcmem tid htid
  have hhc : ∀ tid ∈ c.task_ids, hiddenChar ∉ tid.data :=
    fun tid htid => hhid tid ((mem_joinTids tid b.columns).mpr ⟨c, hcmem, htid⟩)
  refine ⟨?_, map_decode_buildItems b spec c.task_ids hrc hhc,
    buildItems_of_refs b spec c.task_ids hrc⟩
  unfold payload
  rw [List.getElem?_map, hj]
  rfl

/-- C7 witnessed with a filter whose title text matches nothing, so task "t1"
is hidden (passFilter is false); the payload still contains a token for "t1"
and decoding returns exactly ["t1"]. -/
theorem C7_filter_payload_witness :
    (RefsValid (⟨[⟨"a", "A", ["t1"]⟩], [("t1", { title := "T" })]⟩ : Board) ∧
      (∀ tid ∈ allAssigned (⟨[⟨"a", "A", ["t1"]⟩], [("t1", { title := "T" })]⟩ : Board),
        hiddenChar ∉ tid.data) ∧
      passFilter ⟨"zzz", [], []⟩ { title := "T" } = false) ∧
    ((payload ⟨[⟨"a", "A", ["t1"]⟩], [("t1", { title := "T" })]⟩ ⟨"zzz", [], []⟩)[0]? =
        some ("A", buildItems ⟨[⟨"a", "A", ["t1"]⟩], [("t1", { title := "T" })]⟩
          ⟨"zzz", [], []⟩ ["t1"]) ∧
      (buildItems ⟨[⟨"a", "A", ["t1"]⟩], [("t1", { title := "T" })]⟩
        ⟨"zzz", [], []⟩ ["t1"]).map decodeItemId = ["t1"] ∧
      buildItems ⟨[⟨"a", "A", ["t1"]⟩], [("t1", { title := "T" })]⟩
          ⟨"zzz", [], []⟩ ["t1"] =
        ["t1"].map (fun tid =>
          encodeItem
            (match lookupKey [("t1", ({ title := "T" } : Task))] tid with
              | some t => if passFilter ⟨"zzz", [], []⟩ t then itemLabelMultiline t
                else obscuredLabel t
              | none => "") tid)) :=
  ⟨⟨by decide, by decide, by decide⟩,
   C7_filter_payload ⟨[⟨"a", "A", ["t1"]⟩], [("t1", { title := "T" })]⟩ ⟨"zzz", [], []⟩
     (by decide) (by decide) 0 ⟨"a", "A", ["t1"]⟩ rfl⟩

/-- C9: exporting a well-formed board (unique column ids, valid references,
orphans already absorbed, non-empty titles, calendar-valid dates) and
re-importing the exported document yields the original board exactly; the
only due-date normalization is that an absent date is exported as the empty
string and parsed back to no date. -/
theorem C9_round_trip (b : Board) (h1 : NodupIds b) (h2 : RefsValid b)
    (h3 : orphansOf b = [] ∨ b.columns = [])
    (h4 : ∀ p ∈ b.tasks, p.2.title ≠ "" ∧ ∀ dt, p.2.due = some dt → dt.wf) :
    importBoard (exportBoard b) = some b ∧
    (∀ t : Task, t.due = none → (dumpTask t).due = "") ∧
    parseDue "" = some none := by
  refine ⟨importBoard_exportBoard b h1 h2 h3 h4, ?_, rfl⟩
  intro t ht
  unfold dumpTask
  rw [ht]

/-- C9 witnessed at a two-task board with one real due date (a leap-day) and
one absent due date: the round trip reproduces the board exactly. -/
theorem C9_round_trip_witness :
    (NodupIds (⟨[⟨"a", "A", ["t1", "t2"]⟩],
        [("t1", { title := "X", due := some ⟨2024, 2, 29⟩ }), ("t2", { title := "Y" })]⟩ :
        Board) ∧
      orphansOf (⟨[⟨"a", "A", ["t1", "t2"]⟩],
        [("t1", { title := "X", due := some ⟨2024, 2, 29⟩ }), ("t2", { title := "Y" })]⟩ :
        Board) = []) ∧
    importBoard (exportBoard ⟨[⟨"a", "A", ["t1", "t2"]⟩],
        [("t1", { title := "X", due := some ⟨2024, 2, 29⟩ }), ("t2", { title := "Y" })]⟩) =
      some ⟨[⟨"a", "A", ["t1", "t2"]⟩],
        [("t1", { title := "X", due := some ⟨2024, 2, 29⟩ }), ("t2", { title := "Y" })]⟩ :=
  ⟨⟨by decide, by decide⟩,
   (C9_round_trip ⟨[⟨"a", "A", ["t1", "t2"]⟩],
      [("t1", { title := "X", due := some ⟨2024, 2, 29⟩ }), ("t2", { title := "Y" })]⟩
      (by decide) (by decide) (Or.inl (by decide)) (by decide)).1⟩

/-- C2 counterexample: a board in which one column lists the same task id
twice passes construction (the validator checks only existence of references
and duplicate column ids), yet a single delete_task — which removes the task
from `tasks` but strips only the first occurrence from each column — leaves a
column referencing a task id that no longer exists. The claimed invariant is
therefore not maintained over all boards reachable from construction-valid
boards. -/
theorem C2_counterexample :
    validate ⟨[⟨"a", "A", ["t1", "t1"]⟩], [("t1", { title := "T" })]⟩ =
      .ok ⟨[⟨"a", "A", ["t1", "t1"]⟩], [("t1", { title := "T" })]⟩ ∧
    ¬ RefsValid (applyOps ⟨[⟨"a", "A", ["t1", "t1"]⟩], [("t1", { title := "T" })]⟩
        [.deleteTask "t1"]) := by
  constructor
  · rfl
  · decide

/-- C2 amended: strengthening "valid board" to the inductive well-formedness
`Inv` — referential integrity, no task id occurring twice anywhere across the
columns (also not twice inside a single column), unique task keys and unique
column ids — every sequence of mutation operations (with fresh generated ids
and moves of existing tasks, as the uuid generator and the edit modal
guarantee) preserves referential integrity, and no task id ever appears in
more than one column. -/
theorem C2_amended (b : Board) (ops : List Op) (hInv : Inv b) (hseq : SeqOk b ops) :
    RefsValid (applyOps b ops) ∧ AtMostOneColumn (applyOps b ops) := by
  have h := inv_applyOps b ops hInv hseq
  exact ⟨h.1, pairwise_disjoint_of_nodup_joinTids _ h.2.1⟩

/-- C2 amended, witnessed on a concrete board and a four-operation sequence
exercising add, move, column deletion with a destination, and task deletion. -/
theorem C2_amended_witness :
    (Inv (⟨[⟨"a", "A", ["t1"]⟩, ⟨"b", "B", []⟩], [("t1", { title := "T" })]⟩ : Board) ∧
      SeqOk ⟨[⟨"a", "A", ["t1"]⟩, ⟨"b", "B", []⟩], [("t1", { title := "T" })]⟩
        [.addTask "a" { title := "U" } "t2", .moveTask "t1" "b",
          .deleteColumn "a" (some "b"), .deleteTask "t2"]) ∧
    (RefsValid (applyOps ⟨[⟨"a", "A", ["t1"]⟩, ⟨"b", "B", []⟩], [("t1", { title := "T" })]⟩
        [.addTask "a" { title := "U" } "t2", .moveTask "t1" "b",
          .deleteColumn "a" (some "b"), .deleteTask "t2"]) ∧
      AtMostOneColumn (applyOps ⟨[⟨"a", "A", ["t1"]⟩, ⟨"b", "B", []⟩],
          [("t1", { title := "T" })]⟩
        [.addTask "a" { title := "U" } "t2", .moveTask "t1" "b",
          .deleteColumn "a" (some "b"), .deleteTask "t2"])) :=
  ⟨⟨by decide, by decide⟩,
   C2_amended ⟨[⟨"a", "A", ["t1"]⟩, ⟨"b", "B", []⟩], [("t1", { title := "T" })]⟩
     [.addTask "a" { title := "U" } "t2", .moveTask "t1" "b",
       .deleteColumn "a" (some "b"), .deleteTask "t2"] (by decide) (by decide)⟩

/-- C10: add_task with a column id matching no column is not a pure no-op:
it still generates the fresh task id, inserts the task into `tasks`, appends
the id to no column, and saves that board; the inserted task is an orphan
that the repair rule appends to the first column's task_ids on the next
construction. -/
theorem C10_add_task_unknown_column (b : Board) (cid tid : String) (t : Task)
    (hcid : ∀ c ∈ b.columns, c.id ≠ cid)
    (hfresh : tid ∉ keysOf b.tasks)
    (h1 : NodupIds b) (h2 : RefsValid b)
    (h3 : ∀ k ∈ keysOf b.tasks, k ∈ allAssigned b) :
    addTaskRun b cid tid t =
      (⟨b.columns, b.tasks ++ [(tid, t)]⟩, [⟨b.columns, b.tasks ++ [(tid, t)]⟩]) ∧
    lookupKey (addTask b cid tid t).tasks tid = some t ∧
    (∀ c ∈ (addTask b cid tid t).columns, tid ∉ c.task_ids) ∧
    (∀ c0 rest, b.columns = c0 :: rest →
      validate (addTask b cid tid t) =
        .ok ⟨{ c0 with task_ids := c0.task_ids ++ [tid] } :: rest, b.tasks ++ [(tid, t)]⟩) := by
  have hnc : containsId b.columns cid = false := by
    cases hcc : containsId b.columns cid with
    | false => rfl
    | true =>
      rcases List.mem_map.mp ((containsId_iff b.columns cid).mp hcc) with ⟨c, hc, he⟩
      exact absurd he (hcid c hc)
  have hext := extendFirst_of_not_contains b.columns cid [tid] hnc
  have hset := setKey_of_not_mem b.tasks tid t hfresh
  have haddeq : addTask b cid tid t = ⟨b.columns, b.tasks ++ [(tid, t)]⟩ := by
    unfold addTask
    rw [hext, hset]
  have htidnj : tid ∉ joinTids b.columns := fun hmem => hfresh (h2 tid hmem)
  refine ⟨?_, ?_, ?_, ?_⟩
  · unfold addTaskRun
    rw [haddeq]
  · rw [haddeq]
    exact lookupKey_append_fresh b.tasks tid t hfresh
  · rw [haddeq]
    intro c hc htid
    exact hfresh (h2 tid ((mem_joinTids tid b.columns).mpr ⟨c, hc, htid⟩))
  · intro c0 rest hcols
    rw [haddeq]
    have hkeys2 : keysOf (b.tasks ++ [(tid, t)]) = keysOf b.tasks ++ [tid] := by
      unfold keysOf
      rw [List.map_append]
      rfl
    have h1n : NodupIds (⟨b.columns, b.tasks ++ [(tid, t)]⟩ : Board) := h1
    have h2n : RefsValid (⟨b.columns, b.tasks ++ [(tid, t)]⟩ : Board) := by
      intro x hx
      show x ∈ keysOf (b.tasks ++ [(tid, t)])
      rw [hkeys2]
      exact List.mem_append.mpr (Or.inl (h2 x hx))
    rw [validate_ok_of _ h1n h2n]
    have horph : orphansOf (⟨b.columns, b.tasks ++ [(tid, t)]⟩ : Board) = [tid] := by
      show (keysOf (b.tasks ++ [(tid, t)])).filter
        (fun k => !((joinTids b.columns).contains k)) = [tid]
      rw [hkeys2, List.filter_append]
      have hleft : (keysOf b.tasks).filter
          (fun k => !((joinTids b.columns).contains k)) = [] := by
        rw [List.filter_eq_nil_iff]
        intro k hk
        have hmem := h3 k hk
        simp
        exact hmem
      have hright : ([tid] : List String).filter
          (fun k => !((joinTids b.columns).contains k)) = [tid] := by
        simp [htidnj]
      rw [hleft, hright, List.nil_append]
    have hb2 : (⟨b.columns, b.tasks ++ [(tid, t)]⟩ : Board) =
        ⟨c0 :: rest, b.tasks ++ [(tid, t)]⟩ := by
      rw [hcols]
    rw [hb2] at horph ⊢
    rw [repairOrphans_cons, horph]
    rfl

/-- C10 witnessed on a one-column board with no tasks: adding to unknown
column "nope" stores the task unattached, and the next construction attaches
"t-1" to column "a". -/
theorem C10_witness :
    ((∀ c ∈ (⟨[⟨"a", "A", []⟩], []⟩ : Board).columns, c.id ≠ "nope") ∧
      "t-1" ∉ keysOf (⟨[⟨"a", "A", []⟩], []⟩ : Board).tasks) ∧
    (∀ c ∈ (addTask ⟨[⟨"a", "A", []⟩], []⟩ "nope" "t-1" { title := "T" }).columns,
      "t-1" ∉ c.task_ids) ∧
    validate (addTask ⟨[⟨"a", "A", []⟩], []⟩ "nope" "t-1" { title := "T" }) =
      .ok ⟨[⟨"a", "A", ["t-1"]⟩], [("t-1", { title := "T" })]⟩ :=
  ⟨⟨by decide, by decide⟩,
   (C10_add_task_unknown_column ⟨[⟨"a", "A", []⟩], []⟩ "nope" "t-1" { title := "T" }
      (by decide) (by decide) (by decide) (by decide) (by decide)).2.2.1,
   (C10_add_task_unknown_column ⟨[⟨"a", "A", []⟩], []⟩ "nope" "t-1" { title := "T" }
      (by decide) (by decide) (by decide) (by decide) (by decide)).2.2.2
     ⟨"a", "A", []⟩ [] rfl⟩

/-- C1 counterexample: deleting column "a" (holding task "t1") with the
invalid destination id "zzz" does not fail with ColumnNotFound and does not
leave the board unchanged — the column is silently removed, its task id is
reattached to no column, and "t1" becomes an orphan. -/
theorem C1_counterexample :
    deleteColumn ⟨[⟨"a", "A", ["t1"]⟩, ⟨"b", "B", []⟩], [("t1", { title := "T" })]⟩
        "a" (some "zzz") =
      .ok ⟨[⟨"b", "B", []⟩], [("t1", { title := "T" })]⟩ ∧
    orphansOf (⟨[⟨"b", "B", []⟩], [("t1", { title := "T" })]⟩ : Board) = ["t1"] := by
  constructor
  · rfl
  · decide

/-- C1 amended: delete_column fails with ColumnNotFound only when the column
id matches no column, and with NonEmptyColumn when the first matching column
has tasks and the destination is missing or empty; in both failure cases the
board is unchanged and nothing is saved. When the precondition passes and a
truthy destination id `d` is given whose first match is not the source column
itself, the source's task ids are appended in order to the first column with
id `d` before the source column is removed (`extendFirst (pre ++ post) d`);
in particular a destination naming no column is not rejected — the source
column is removed anyway and its task ids are appended to no column. An
empty source column with no destination is simply removed. -/
theorem C1_amended (b : Board) (cid : String) (dest : Option String)
    (pre : List Column) (col : Column) (post : List Column) :
    ((∀ c ∈ b.columns, c.id ≠ cid) →
      deleteColumn b cid dest = .error .columnNotFound ∧
        deleteColumnRun b cid dest = (b, [])) ∧
    (b.columns = pre ++ col :: post → (∀ c ∈ pre, c.id ≠ cid) → col.id = cid →
      ((col.task_ids ≠ [] → optTruthy dest = false →
          deleteColumn b cid dest = .error .nonEmptyColumn ∧
            deleteColumnRun b cid dest = (b, [])) ∧
        (∀ d, dest = some d → optTruthy dest = true →
          (containsId pre d = true ∨ col.id ≠ d) →
          deleteColumn b cid dest =
            .ok ⟨extendFirst (pre ++ post) d col.task_ids, b.tasks⟩) ∧
        (col.task_ids = [] → optTruthy dest = false →
          deleteColumn b cid dest = .ok ⟨pre ++ post, b.tasks⟩))) := by
  constructor
  · intro h
    have hfc := findCol_eq_none b.columns cid h
    have hdel : deleteColumn b cid dest = .error .columnNotFound := by
      unfold deleteColumn
      rw [hfc]
    refine ⟨hdel, ?_⟩
    unfold deleteColumnRun
    rw [hdel]
  · intro hdecomp hpre hcid
    have hfc : findCol b.columns cid = some (pre, col, post) := by
      rw [hdecomp]
      exact findCol_of_decomp pre col post cid hpre hcid
    refine ⟨?_, ?_, ?_⟩
    · intro hne hfalse
      have hdel : deleteColumn b cid dest = .error .nonEmptyColumn := by
        unfold deleteColumn
        rw [hfc]
        dsimp only
        rw [if_pos ⟨hne, hfalse⟩]
      refine ⟨hdel, ?_⟩
      unfold deleteColumnRun
      rw [hdel]
    · intro d hd htr hside
      unfold deleteColumn
      rw [hfc]
      dsimp only
      rw [if_neg (by rintro ⟨_, hcon⟩; rw [htr] at hcon; exact absurd hcon (by simp))]
      rw [if_pos htr, hd, Option.getD_some]
      rw [hdecomp]
      by_cases h1 : containsId pre d = true
      · rw [extendFirst_append_of_contains pre (col :: post) d col.task_ids h1]
        rw [removeFirstCol_decomp (extendFirst pre d col.task_ids) col post cid
          (ids_of_extendFirst_ne pre d col.task_ids cid hpre) hcid]
        rw [extendFirst_append_of_contains pre post d col.task_ids h1]
      · have h1f : containsId pre d = false := by
          cases hcc : containsId pre d with
          | false => rfl
          | true => exact absurd hcc h1
        have hcd : col.id ≠ d := by
          rcases hside with hs | hs
          · exact absurd hs h1
          · exact hs
        rw [extendFirst_append_of_not_contains pre (col :: post) d col.task_ids h1f]
        rw [show extendFirst (col :: post) d col.task_ids =
            col :: extendFirst post d col.task_ids by
          rw [extendFirst]
          simp only [hcd, if_false]]
        rw [removeFirstCol_decomp pre col (extendFirst post d col.task_ids) cid hpre hcid]
        rw [extendFirst_append_of_not_contains pre post d col.task_ids h1f]
    · intro hemp hfalse
      unfold deleteColumn
      rw [hfc]
      dsimp only
      rw [if_neg (by rintro ⟨hcon, _⟩; exact hcon hemp)]
      rw [if_neg (by rw [hfalse]; simp)]
      rw [hdecomp, removeFirstCol_decomp pre col post cid hpre hcid]

/-- C1 amended, witnessed at concrete boards: a missing column id errors with
ColumnNotFound and saves nothing; deleting non-empty "a" without a
destination errors with NonEmptyColumn and saves nothing; deleting "a" with
valid destination "b" appends ["t1"] to column "b" in order and removes "a";
deleting an empty column without destination just removes it. -/
theorem C1_amended_witness :
    (deleteColumn ⟨[⟨"a", "A", ["t1"]⟩], [("t1", { title := "T" })]⟩ "zzz" none =
        .error .columnNotFound ∧
      deleteColumnRun ⟨[⟨"a", "A", ["t1"]⟩], [("t1", { title := "T" })]⟩ "zzz" none =
        (⟨[⟨"a", "A", ["t1"]⟩], [("t1", { title := "T" })]⟩, [])) ∧
    (deleteColumn ⟨[⟨"a", "A", ["t1"]⟩, ⟨"b", "B", []⟩], [("t1", { title := "T" })]⟩
        "a" none = .error .nonEmptyColumn ∧
      deleteColumnRun ⟨[⟨"a", "A", ["t1"]⟩, ⟨"b", "B", []⟩], [("t1", { title := "T" })]⟩
        "a" none =
        (⟨[⟨"a", "A", ["t1"]⟩, ⟨"b", "B", []⟩], [("t1", { title := "T" })]⟩, [])) ∧
    deleteColumn ⟨[⟨"a", "A", ["t1"]⟩, ⟨"b", "B", []⟩], [("t1", { title := "T" })]⟩
        "a" (some "b") =
      .ok ⟨extendFirst ([] ++ [⟨"b", "B", []⟩]) "b" ["t1"], [("t1", { title := "T" })]⟩ ∧
    deleteColumn ⟨[⟨"a", "A", []⟩, ⟨"b", "B", []⟩], []⟩ "a" none =
      .ok ⟨[] ++ [⟨"b", "B", []⟩], ([] : List (String × Task))⟩ :=
  ⟨(C1_amended ⟨[⟨"a", "A", ["t1"]⟩], [("t1", { title := "T" })]⟩ "zzz" none
      [] ⟨"a", "A", ["t1"]⟩ [] ).1 (by decide),
   ((C1_amended ⟨[⟨"a", "A", ["t1"]⟩, ⟨"b", "B", []⟩], [("t1", { title := "T" })]⟩
      "a" none [] ⟨"a", "A", ["t1"]⟩ [⟨"b", "B", []⟩]).2 rfl (by decide) rfl).1
     (by decide) rfl,
   ((C1_amended ⟨[⟨"a", "A", ["t1"]⟩, ⟨"b", "B", []⟩], [("t1", { title := "T" })]⟩
      "a" (some "b") [] ⟨"a", "A", ["t1"]⟩ [⟨"b", "B", []⟩]).2 rfl (by decide) rfl).2.1
     "b" rfl rfl (Or.inr (by decide)),
   ((C1_amended ⟨[⟨"a", "A", []⟩, ⟨"b", "B", []⟩], []⟩
      "a" none [] ⟨"a", "A", []⟩ [⟨"b", "B", []⟩]).2 rfl (by decide) rfl).2.2 rfl rfl⟩

end Kanban
